import Mathlib

set_option autoImplicit false

/-!
# Verification of the `GroupTransactionCalculator` ledger and settlement optimizer

Shallow embedding of `src/ledger.py`.  The Python floats are modelled as exact
rationals `ℚ`; Python dicts (insertion ordered, unique keys) as association
lists kept in insertion order.  A Python exception (`ZeroDivisionError`,
`KeyError`) is modelled with `Except`; for `addItem` the error value carries
the mutated object state at the moment of the raise.
-/

deriving instance DecidableEq for Except

/-- The snapping threshold `0.01` used throughout the program. -/
def eps : ℚ := 1 / 100

/-- A settlement transaction.  The Python code stores the string
`f"{debtorName} pays {creditorName} ${amount:.2f}"`; we keep the structured
contents, with the exact amount (the text renders it to two decimals). -/
structure SettleTxn where
  debtor : String
  creditor : String
  amount : ℚ
deriving DecidableEq, Repr

/-- Keys of an association list (Python `dict` keys, in insertion order). -/
def keys {α β : Type} (l : List (α × β)) : List α := l.map Prod.fst

/-- Python `d.get(k, 0)` on a `str -> float` dict. -/
def getD (l : List (String × ℚ)) (p : String) : ℚ :=
  match l.find? (fun x => x.1 == p) with
  | some x => x.2
  | none => 0

/-- Python `d[k] += a` on a dict known to contain `k` (the call site in
`addItem` runs right after `addPerson(buyer)`, so the key is present; on a
missing key this model leaves the list unchanged, a case the program never
reaches). -/
def bump : List (String × ℚ) → String → ℚ → List (String × ℚ)
  | [], _, _ => []
  | x :: r, p, a => if x.1 == p then (x.1, x.2 + a) :: r else x :: bump r p a

/-- Python `d[k] += a` on the owed-amounts dict of `calculateShares`;
`none` models the `KeyError` raised when `k` is absent. -/
def bumpChecked : List (String × ℚ) → String → ℚ → Option (List (String × ℚ))
  | [], _, _ => none
  | x :: r, p, a =>
    if x.1 == p then some ((x.1, x.2 + a) :: r)
    else (bumpChecked r p a).map (fun r2 => x :: r2)

/-- Python `dd[(debtor, buyer)] = dd.get((debtor, buyer), 0) + a`:
update in place if the key is present, else append (dict insertion order). -/
def ddAdd : List ((String × String) × ℚ) → (String × String) → ℚ → List ((String × String) × ℚ)
  | [], k, a => [(k, a)]
  | x :: r, k, a => if x.1 == k then (x.1, x.2 + a) :: r else x :: ddAdd r k a

/-- One item record `(buyer, cost, {person: quantity}, isCommon)`. -/
abbrev ItemRecord := String × ℚ × List (String × ℤ) × Bool

/-- The state of a `GroupTransactionCalculator` object. -/
structure GroupTransactionCalculator where
  personPayments : List (String × ℚ)
  itemRecords : List ItemRecord
  settlementTransactions : List SettleTxn
  detailedDebts : List ((String × String) × ℚ)
deriving DecidableEq, Repr

/-- The freshly constructed calculator (`__init__`). -/
def initCalc : GroupTransactionCalculator := ⟨[], [], [], []⟩

/-- `addPerson`: add a person if they are not already tracked. -/
def addPerson (c : GroupTransactionCalculator) (personName : String) :
    GroupTransactionCalculator :=
  if (c.personPayments.find? (fun x => x.1 == personName)).isSome then c
  else { c with personPayments := c.personPayments ++ [(personName, 0)] }

/-- `addItem`.  `Except.error s` models the `ZeroDivisionError` raised by
`share = cost / len(peopleInvolved)` when the item is common and the
participants map is empty; `s` is the object state at the moment of the raise
(the buyer added, the buyer's payment increased, the record appended). -/
def addItem (c : GroupTransactionCalculator) (buyer : String) (cost : ℚ)
    (peopleInvolved : List (String × ℤ)) (isCommon : Bool) :
    Except GroupTransactionCalculator GroupTransactionCalculator :=
  let c1 := addPerson c buyer
  let c2 := { c1 with personPayments := bump c1.personPayments buyer cost }
  let c3 := (keys peopleInvolved).foldl addPerson c2
  let c4 := { c3 with itemRecords := c3.itemRecords ++ [(buyer, cost, peopleInvolved, isCommon)] }
  if isCommon then
    if peopleInvolved.length = 0 then Except.error c4
    else
      let share := cost / (peopleInvolved.length : ℚ)
      Except.ok { c4 with detailedDebts :=
        (peopleInvolved.foldl
          (fun dd x => if x.1 ≠ buyer then ddAdd dd (x.1, buyer) share else dd)
          c4.detailedDebts) }
  else
    let totalQuantity := (peopleInvolved.map Prod.snd).sum
    if totalQuantity = 0 then Except.ok c4
    else
      let costPerUnit := cost / (totalQuantity : ℚ)
      Except.ok { c4 with detailedDebts :=
        (peopleInvolved.foldl
          (fun dd x => if x.1 ≠ buyer then ddAdd dd (x.1, buyer) (costPerUnit * (x.2 : ℚ)) else dd)
          c4.detailedDebts) }

/-- Adding one record's shares to the owed dict, person by person
(`owedAmounts[person] += share` in record order); `none` is a `KeyError`. -/
def addShares : List (String × ℚ) → List (String × ℚ) → Option (List (String × ℚ))
  | owed, [] => some owed
  | owed, (p, a) :: rest =>
    match bumpChecked owed p a with
    | none => none
    | some owed2 => addShares owed2 rest

/-- The per-record loop of `calculateShares`.  `Except.error ()` models an
uncaught exception: `ZeroDivisionError` on a common record with no
participants, or `KeyError` on a participant missing from the owed dict. -/
def sharesLoop : List (String × ℚ) → List ItemRecord → Except Unit (List (String × ℚ))
  | owed, [] => Except.ok owed
  | owed, (_buyer, cost, ppl, isCommon) :: rest =>
    if isCommon then
      if ppl.length = 0 then Except.error ()
      else
        let share := cost / (ppl.length : ℚ)
        match addShares owed (ppl.map (fun x => (x.1, share))) with
        | none => Except.error ()
        | some owed2 => sharesLoop owed2 rest
    else
      let totalQuantity := (ppl.map Prod.snd).sum
      if totalQuantity = 0 then sharesLoop owed rest
      else
        let costPerUnit := cost / (totalQuantity : ℚ)
        match addShares owed (ppl.map (fun x => (x.1, costPerUnit * (x.2 : ℚ)))) with
        | none => Except.error ()
        | some owed2 => sharesLoop owed2 rest

/-- `calculateShares`: owed amounts start at `0.0` for every tracked person,
then every item record contributes its shares. -/
def calculateShares (c : GroupTransactionCalculator) : Except Unit (List (String × ℚ)) :=
  sharesLoop (c.personPayments.map (fun x => (x.1, (0 : ℚ)))) c.itemRecords

/-- Scores of the settlement search: a transaction count, or `float('inf')`
(the initial `bestScore`). -/
abbrev Score := WithTop ℕ

/-- Alpha/beta values of the search: scores together with `float('-inf')`. -/
abbrev AB := WithBot (WithTop ℕ)

/-- `amount = min(-debtorAmount, creditorAmount)`. -/
def settleAmount (debtorAmount creditorAmount : ℚ) : ℚ :=
  min (-debtorAmount) creditorAmount

/-- `newDebtors[i] = (debtorName, debtorAmount + amount)` followed by
`newDebtors.pop(i)` when the updated balance is below the snapping
threshold. -/
def moveDebtors (debtors : List (String × ℚ)) (i : ℕ) (debtorName : String)
    (debtorAmount amount : ℚ) : List (String × ℚ) :=
  let upd := debtors.set i (debtorName, debtorAmount + amount)
  if |debtorAmount + amount| < eps then upd.eraseIdx i else upd

/-- `newCreditors[j] = (creditorName, creditorAmount - amount)` followed by
`newCreditors.pop(j)` when the updated balance is below the snapping
threshold. -/
def moveCreditors (creditors : List (String × ℚ)) (j : ℕ) (creditorName : String)
    (creditorAmount amount : ℚ) : List (String × ℚ) :=
  let upd := creditors.set j (creditorName, creditorAmount - amount)
  if |creditorAmount - amount| < eps then upd.eraseIdx j else upd

/-- The inner `for j, (creditorName, creditorAmount) in enumerate(creditors)`
loop of `evaluateState`, for a fixed debtor `(i, debtorName, debtorAmount)`.
`ev` evaluates a child state (at the call site it is `evaluateState` at one
less fuel with the `maximizing` flag cleared, taking the current `beta`); the
loop threads `(bestScore, bestTransactions)` and `beta`, and the early return
models `break` when `beta <= alpha`. -/
def innerLoop
    (ev : List (String × ℚ) → List (String × ℚ) → List SettleTxn → AB → Score × List SettleTxn)
    (debtors creditors : List (String × ℚ)) (transactions : List SettleTxn) (alpha : AB)
    (i : ℕ) (debtorName : String) (debtorAmount : ℚ) :
    List (ℕ × String × ℚ) → (Score × List SettleTxn) → AB → (Score × List SettleTxn) × AB
  | [], best, beta => (best, beta)
  | (j, creditorName, creditorAmount) :: rest, best, beta =>
    if debtorName = creditorName then
      innerLoop ev debtors creditors transactions alpha i debtorName debtorAmount rest best beta
    else
      let amount := settleAmount debtorAmount creditorAmount
      let res := ev (moveDebtors debtors i debtorName debtorAmount amount)
        (moveCreditors creditors j creditorName creditorAmount amount)
        (transactions ++ [⟨debtorName, creditorName, amount⟩]) beta
      let best2 := if res.1 < best.1 then res else best
      let beta2 := min beta (best2.1 : AB)
      if beta2 ≤ alpha then (best2, beta2)
      else innerLoop ev debtors creditors transactions alpha i debtorName debtorAmount rest best2 beta2

/-- The outer `for i, (debtorName, debtorAmount) in enumerate(debtors)` loop of
`evaluateState`; after each inner loop, `break` when `beta <= alpha`. -/
def outerLoop
    (ev : List (String × ℚ) → List (String × ℚ) → List SettleTxn → AB → Score × List SettleTxn)
    (debtors creditors : List (String × ℚ)) (transactions : List SettleTxn) (alpha : AB) :
    List (ℕ × String × ℚ) → (Score × List SettleTxn) → AB → Score × List SettleTxn
  | [], best, _ => best
  | (i, debtorName, debtorAmount) :: rest, best, beta =>
    let r := innerLoop ev debtors creditors transactions alpha i debtorName debtorAmount
      creditors.enum best beta
    if r.2 ≤ alpha then r.1
    else outerLoop ev debtors creditors transactions alpha rest r.1 r.2

/-- `evaluateState`, fuelled.  The first argument is recursion fuel (two units
per emitted transaction: the minimising step and the flag-flipping step); with
fuel at least `2 * (debtors.length + creditors.length)` the out-of-fuel branch
is unreachable (`evaluateState_fuel_high` below), which is how the entry point
`optimizeTransactions` calls it. -/
def evaluateState :
    ℕ → List (String × ℚ) → List (String × ℚ) → List SettleTxn → ℕ → AB → AB → Bool →
    Score × List SettleTxn
  | 0, _, _, transactions, _, _, _, _ => ((transactions.length : Score), transactions)
  | fuel + 1, debtors, creditors, transactions, depth, alpha, beta, maximizing =>
    if debtors = [] ∨ creditors = [] then ((transactions.length : Score), transactions)
    else if maximizing then
      outerLoop (fun d c t b => evaluateState fuel d c t (depth + 1) alpha b false)
        debtors creditors transactions alpha debtors.enum ((⊤ : Score), transactions) beta
    else
      evaluateState fuel debtors creditors transactions depth alpha beta true

/-- The balances computed at the top of `optimizeTransactions`:
`personPayments[person] - owedAmounts.get(person, 0)`. -/
def balancesOf (c : GroupTransactionCalculator) (owedAmounts : List (String × ℚ)) :
    List (String × ℚ) :=
  c.personPayments.map (fun x => (x.1, x.2 - getD owedAmounts x.1))

/-- Zero-snapping: balances below `eps` in absolute value are set to `0.0`. -/
def snapBalances (balances : List (String × ℚ)) : List (String × ℚ) :=
  balances.map (fun x => if |x.2| < eps then (x.1, 0) else x)

/-- `debtorsList`: the people with negative snapped balance. -/
def debtorsOf (c : GroupTransactionCalculator) (owedAmounts : List (String × ℚ)) :
    List (String × ℚ) :=
  (snapBalances (balancesOf c owedAmounts)).filter (fun x => decide (x.2 < 0))

/-- `creditorsList`: the people with positive snapped balance. -/
def creditorsOf (c : GroupTransactionCalculator) (owedAmounts : List (String × ℚ)) :
    List (String × ℚ) :=
  (snapBalances (balancesOf c owedAmounts)).filter (fun x => decide (0 < x.2))

/-- `optimizeTransactions`: computes balances, snaps them, splits into debtors
and creditors, and stores the transaction list found by `evaluateState`
(called with `alpha = -inf`, `beta = +inf`, `maximizing = True`). -/
def optimizeTransactions (c : GroupTransactionCalculator)
    (owedAmounts : List (String × ℚ)) : GroupTransactionCalculator :=
  let debtorsList := debtorsOf c owedAmounts
  let creditorsList := creditorsOf c owedAmounts
  if debtorsList = [] ∨ creditorsList = [] then
    { c with settlementTransactions := [] }
  else
    { c with settlementTransactions :=
        (evaluateState (2 * (debtorsList.length + creditorsList.length))
          debtorsList creditorsList [] 0 ⊥ ⊤ true).2 }

/-- Applying one settlement transaction to a balance map: the debtor's balance
rises by the amount, the creditor's falls (spec §4.4 step 2). -/
def applyTxn (balances : List (String × ℚ)) (t : SettleTxn) : List (String × ℚ) :=
  balances.map (fun x =>
    (x.1, x.2 + (if x.1 = t.debtor then t.amount else 0)
              - (if x.1 = t.creditor then t.amount else 0)))

/-- Applying a transaction list in order to a balance map. -/
def applyTxns (balances : List (String × ℚ)) (ts : List SettleTxn) : List (String × ℚ) :=
  ts.foldl applyTxn balances

/-- Net effect of a transaction list on one person's balance. -/
def txnDelta (ts : List SettleTxn) (p : String) : ℚ :=
  (ts.map (fun t => (if p = t.debtor then t.amount else 0)
                  - (if p = t.creditor then t.amount else 0))).sum

/-- Every balance of the map is within `eps` of zero. -/
def AllSettled (balances : List (String × ℚ)) : Prop :=
  ∀ x ∈ balances, |x.2| < eps

instance (balances : List (String × ℚ)) : Decidable (AllSettled balances) :=
  inferInstanceAs (Decidable (∀ x ∈ balances, |x.2| < eps))

/-- `q` is a whole number of cents: `q * 100` is an integer. -/
def IsCents (q : ℚ) : Prop := (q * 100).den = 1

instance (q : ℚ) : Decidable (IsCents q) :=
  inferInstanceAs (Decidable ((q * 100).den = 1))

/-- Sum of the values of a balance map. -/
def sumVals (l : List (String × ℚ)) : ℚ := (l.map Prod.snd).sum

/-- The keys of an association list are distinct (automatic for a Python dict). -/
def NoDupKeys {β : Type} (l : List (String × β)) : Prop := (keys l).Nodup

instance {β : Type} (l : List (String × β)) : Decidable (NoDupKeys l) :=
  inferInstanceAs (Decidable (keys l).Nodup)

/-- The inner creditor loop without `alpha`/`beta`. -/
def plainInner
    (ev : List (String × ℚ) → List (String × ℚ) → List SettleTxn → Score × List SettleTxn)
    (debtors creditors : List (String × ℚ)) (transactions : List SettleTxn)
    (i : ℕ) (debtorName : String) (debtorAmount : ℚ) :
    List (ℕ × String × ℚ) → (Score × List SettleTxn) → Score × List SettleTxn
  | [], best => best
  | (j, creditorName, creditorAmount) :: rest, best =>
    if debtorName = creditorName then
      plainInner ev debtors creditors transactions i debtorName debtorAmount rest best
    else
      let amount := settleAmount debtorAmount creditorAmount
      let res := ev (moveDebtors debtors i debtorName debtorAmount amount)
        (moveCreditors creditors j creditorName creditorAmount amount)
        (transactions ++ [⟨debtorName, creditorName, amount⟩])
      plainInner ev debtors creditors transactions i debtorName debtorAmount rest
        (if res.1 < best.1 then res else best)

/-- The outer debtor loop without `alpha`/`beta`. -/
def plainOuter
    (ev : List (String × ℚ) → List (String × ℚ) → List SettleTxn → Score × List SettleTxn)
    (debtors creditors : List (String × ℚ)) (transactions : List SettleTxn) :
    List (ℕ × String × ℚ) → (Score × List SettleTxn) → Score × List SettleTxn
  | [], best => best
  | (i, debtorName, debtorAmount) :: rest, best =>
    plainOuter ev debtors creditors transactions rest
      (plainInner ev debtors creditors transactions i debtorName debtorAmount
        creditors.enum best)

/-- The single-objective exhaustive minimisation, fuelled (one unit of fuel
per emitted transaction). -/
def plainSearch :
    ℕ → List (String × ℚ) → List (String × ℚ) → List SettleTxn → Score × List SettleTxn
  | 0, _, _, transactions => ((transactions.length : Score), transactions)
  | fuel + 1, debtors, creditors, transactions =>
    if debtors = [] ∨ creditors = [] then ((transactions.length : Score), transactions)
    else plainOuter (fun d c t => plainSearch fuel d c t) debtors creditors transactions
      debtors.enum ((⊤ : Score), transactions)

/-- `optimizeTransactions` built on the plain search. -/
def optimizePlain (c : GroupTransactionCalculator)
    (owedAmounts : List (String × ℚ)) : GroupTransactionCalculator :=
  let debtorsList := debtorsOf c owedAmounts
  let creditorsList := creditorsOf c owedAmounts
  if debtorsList = [] ∨ creditorsList = [] then
    { c with settlementTransactions := [] }
  else
    { c with settlementTransactions :=
        (plainSearch (debtorsList.length + creditorsList.length)
          debtorsList creditorsList []).2 }

/-- The move space of the settlement search: from state `(debtors, creditors)`
either the state is terminal (one side exhausted), or some debtor/creditor
pair with distinct names is paid `min(-debtor, creditor)` and the schedule
continues on the moved state.  `SettlePath ds cs T` holds when the transaction
list `T` drives `(ds, cs)` to a terminal state of the search. -/
inductive SettlePath : List (String × ℚ) → List (String × ℚ) → List SettleTxn → Prop where
  | terminal (ds cs : List (String × ℚ)) (h : ds = [] ∨ cs = []) : SettlePath ds cs []
  | step (ds cs : List (String × ℚ)) (i j : ℕ) (dn cn : String) (da ca : ℚ)
      (T : List SettleTxn)
      (hd : ds[i]? = some (dn, da)) (hc : cs[j]? = some (cn, ca)) (hne : dn ≠ cn)
      (hrest : SettlePath (moveDebtors ds i dn da (settleAmount da ca))
        (moveCreditors cs j cn ca (settleAmount da ca)) T) :
      SettlePath ds cs (SettleTxn.mk dn cn (settleAmount da ca) :: T)

/-- Ledgers produced from a fresh calculator by any sequence of `addPerson`
calls and successful `addItem` calls with nonnegative cost. -/
inductive Built : GroupTransactionCalculator → Prop where
  | start : Built initCalc
  | person (c : GroupTransactionCalculator) (n : String) (h : Built c) :
      Built (addPerson c n)
  | item (c c2 : GroupTransactionCalculator) (buyer : String) (cost : ℚ)
      (ppl : List (String × ℤ)) (isCommon : Bool) (h : Built c) (hcost : 0 ≤ cost)
      (hok : addItem c buyer cost ppl isCommon = Except.ok c2) : Built c2

/-! ## Basic lemmas about the association-list helpers -/

theorem getD_eq (l : List (String × ℚ)) (p : String) :
    getD l p = ((l.find? (fun x => x.1 == p)).map Prod.snd).getD 0 := by
  unfold getD
  cases l.find? (fun x => x.1 == p) <;> rfl

theorem getD_nil (p : String) : getD [] p = 0 := rfl

theorem getD_cons (x : String × ℚ) (r : List (String × ℚ)) (p : String) :
    getD (x :: r) p = if x.1 == p then x.2 else getD r p := by
  rw [getD_eq, getD_eq, List.find?_cons]
  cases hx : (x.1 == p) <;> simp [hx]

theorem bump_cons (x : String × ℚ) (r : List (String × ℚ)) (p : String) (a : ℚ) :
    bump (x :: r) p a = if x.1 == p then (x.1, x.2 + a) :: r else x :: bump r p a := rfl

theorem keys_bump (l : List (String × ℚ)) (p : String) (a : ℚ) :
    keys (bump l p a) = keys l := by
  induction l with
  | nil => rfl
  | cons x r ih =>
    rw [bump_cons]
    cases hx : (x.1 == p) with
    | true => simp [keys]
    | false =>
      simp only [Bool.false_eq_true, if_false]
      simp only [keys, List.map_cons] at ih ⊢
      rw [ih]

theorem addPerson_itemRecords (c : GroupTransactionCalculator) (n : String) :
    (addPerson c n).itemRecords = c.itemRecords := by
  rw [addPerson]; split <;> rfl

theorem addPerson_detailedDebts (c : GroupTransactionCalculator) (n : String) :
    (addPerson c n).detailedDebts = c.detailedDebts := by
  rw [addPerson]; split <;> rfl

theorem addPerson_settlementTransactions (c : GroupTransactionCalculator) (n : String) :
    (addPerson c n).settlementTransactions = c.settlementTransactions := by
  rw [addPerson]; split <;> rfl

theorem foldl_addPerson_itemRecords (l : List String) (c : GroupTransactionCalculator) :
    (l.foldl addPerson c).itemRecords = c.itemRecords := by
  induction l generalizing c with
  | nil => rfl
  | cons x r ih => simpa [List.foldl, addPerson_itemRecords] using ih (addPerson c x)

theorem foldl_addPerson_detailedDebts (l : List String) (c : GroupTransactionCalculator) :
    (l.foldl addPerson c).detailedDebts = c.detailedDebts := by
  induction l generalizing c with
  | nil => rfl
  | cons x r ih => simpa [List.foldl, addPerson_detailedDebts] using ih (addPerson c x)

theorem foldl_addPerson_settlementTransactions (l : List String)
    (c : GroupTransactionCalculator) :
    (l.foldl addPerson c).settlementTransactions = c.settlementTransactions := by
  induction l generalizing c with
  | nil => rfl
  | cons x r ih => simpa [List.foldl, addPerson_settlementTransactions] using ih (addPerson c x)

theorem getD_addPerson (c : GroupTransactionCalculator) (n p : String) :
    getD (addPerson c n).personPayments p = getD c.personPayments p := by
  rw [addPerson]
  split
  · rfl
  · rename_i h
    show getD (c.personPayments ++ [(n, 0)]) p = getD c.personPayments p
    rw [getD_eq, getD_eq, List.find?_append]
    by_cases hpn : n = p
    · subst hpn
      have hnone : c.personPayments.find? (fun x => x.1 == n) = none := by
        cases hf : c.personPayments.find? (fun x => x.1 == n) with
        | none => rfl
        | some v => rw [hf] at h; simp at h
      rw [hnone]
      simp [List.find?]
    · have hb : ((n : String) == p) = false := beq_eq_false_iff_ne.mpr hpn
      have hone : List.find? (fun x => x.1 == p) [((n : String), (0 : ℚ))] = none := by
        simp [List.find?, hb]
      rw [hone]
      cases c.personPayments.find? (fun x => x.1 == p) <;> rfl

theorem getD_foldl_addPerson (l : List String) (c : GroupTransactionCalculator) (p : String) :
    getD (l.foldl addPerson c).personPayments p = getD c.personPayments p := by
  induction l generalizing c with
  | nil => rfl
  | cons x r ih => simpa [List.foldl, getD_addPerson] using ih (addPerson c x)

theorem getD_bump_of_mem (l : List (String × ℚ)) (p : String) (a : ℚ)
    (h : (l.find? (fun x => x.1 == p)).isSome) :
    getD (bump l p a) p = getD l p + a := by
  induction l with
  | nil => simp [List.find?] at h
  | cons x r ih =>
    rw [bump_cons]
    cases hx : (x.1 == p) with
    | true =>
      simp only [hx, if_true]
      simp [getD_cons, hx]
    | false =>
      simp only [hx, Bool.false_eq_true, if_false]
      simp only [getD_cons, hx, Bool.false_eq_true, if_false]
      apply ih
      rw [List.find?_cons] at h
      simpa [hx] using h

theorem find?_isSome_addPerson_self (c : GroupTransactionCalculator) (n : String) :
    ((addPerson c n).personPayments.find? (fun x => x.1 == n)).isSome := by
  rw [addPerson]
  split
  · rename_i h; exact h
  · show ((c.personPayments ++ [(n, (0 : ℚ))]).find? (fun x : String × ℚ => x.1 == n)).isSome
    rw [List.find?_isSome]
    exact ⟨(n, 0), by simp, by simp⟩

theorem find?_isSome_iff_mem_keys (l : List (String × ℚ)) (p : String) :
    (l.find? (fun x => x.1 == p)).isSome ↔ p ∈ keys l := by
  rw [List.find?_isSome]
  constructor
  · rintro ⟨x, hx, he⟩
    have : x.1 = p := by simpa using he
    exact this ▸ List.mem_map_of_mem Prod.fst hx
  · intro hp
    rcases List.mem_map.mp hp with ⟨x, hx, he⟩
    exact ⟨x, hx, by simp [he]⟩

/-! ## Claim C8: idempotence of `addPerson` -/

/-- C8: `addPerson` is idempotent: with a name not yet known it creates that
person with `totalPaid = 0` (appended to the payments dict); with an
already-known name it leaves the entire state unchanged; and
`addPerson n` twice equals `addPerson n` once. -/
theorem claim_C8_addPerson_idempotent (c : GroupTransactionCalculator) (n : String) :
    (c.personPayments.find? (fun x => x.1 == n) = none →
      addPerson c n = { c with personPayments := c.personPayments ++ [(n, 0)] }) ∧
    ((c.personPayments.find? (fun x => x.1 == n)).isSome → addPerson c n = c) ∧
    addPerson (addPerson c n) n = addPerson c n := by
  refine ⟨?_, ?_, ?_⟩
  · intro h
    rw [addPerson, if_neg]
    simp [h]
  · intro h
    rw [addPerson, if_pos h]
  · rw [addPerson, if_pos (find?_isSome_addPerson_self c n)]

/-- Witness for C8: both the fresh-name and the known-name cases at concrete
states. -/
theorem claim_C8_witness :
    addPerson (addPerson initCalc "Ann") "Ann" = addPerson initCalc "Ann" ∧
    addPerson ⟨[("Ann", 5)], [], [], []⟩ "Ann" = ⟨[("Ann", 5)], [], [], []⟩ := by
  constructor
  · exact (claim_C8_addPerson_idempotent initCalc "Ann").2.2
  · exact (claim_C8_addPerson_idempotent ⟨[("Ann", 5)], [], [], []⟩ "Ann").2.1 (by decide)

/-! ## Claims C10 and C3: the empty common participants map -/

theorem addItem_emptyCommon_eq (c : GroupTransactionCalculator) (buyer : String) (cost : ℚ) :
    addItem c buyer cost [] true = Except.error
      { addPerson c buyer with
        personPayments := bump (addPerson c buyer).personPayments buyer cost,
        itemRecords := (addPerson c buyer).itemRecords ++ [(buyer, cost, [], true)] } := rfl

/-- C10: `addItem` in Equal (common) mode with an empty participants map
raises `ZeroDivisionError` (modelled as `Except.error`), and at the point of
the raise the ledger has already been mutated: the buyer is present, the
buyer's recorded payment has grown by `cost`, and the record has been appended
to the history — the failing operation is not atomic. -/
theorem claim_C10_emptyCommon_not_atomic (c : GroupTransactionCalculator)
    (buyer : String) (cost : ℚ) :
    ∃ c2, addItem c buyer cost [] true = Except.error c2 ∧
      (c2.personPayments.find? (fun x => x.1 == buyer)).isSome ∧
      getD c2.personPayments buyer = getD c.personPayments buyer + cost ∧
      c2.itemRecords = c.itemRecords ++ [(buyer, cost, [], true)] ∧
      c2 ≠ c := by
  refine ⟨_, addItem_emptyCommon_eq c buyer cost, ?_, ?_, ?_, ?_⟩
  · show ((bump (addPerson c buyer).personPayments buyer cost).find?
      (fun x => x.1 == buyer)).isSome
    rw [find?_isSome_iff_mem_keys, keys_bump]
    rw [← find?_isSome_iff_mem_keys]
    exact find?_isSome_addPerson_self c buyer
  · show getD (bump (addPerson c buyer).personPayments buyer cost) buyer = _
    rw [getD_bump_of_mem _ _ _ (find?_isSome_addPerson_self c buyer), getD_addPerson]
  · show (addPerson c buyer).itemRecords ++ [(buyer, cost, [], true)] = _
    rw [addPerson_itemRecords]
  · intro he
    have hrec := congrArg GroupTransactionCalculator.itemRecords he
    simp only [addPerson_itemRecords] at hrec
    have := congrArg List.length hrec
    simp at this

/-- C3 evaluation at the failing input: the Equal-mode `addItem` with an empty
participants map does execute the division — it raises `ZeroDivisionError`
(`Except.error`) instead of rejecting the call or treating it as a no-op —
and `calculateShares` over a ledger containing such a record raises as well,
so the condition is fatal in the core. -/
theorem claim_C3_empty_common_is_fatal :
    addItem initCalc "A" 10 [] true =
      Except.error ⟨[("A", 10)], [("A", 10, [], true)], [], []⟩ ∧
    calculateShares ⟨[("A", 10)], [("A", 10, [], true)], [], []⟩ = Except.error () := by
  exact ⟨by with_unfolding_all decide, by with_unfolding_all decide⟩

/-! ## Claim C5: Proportional mode with zero total weight -/

theorem sharesLoop_append_zero_weight (owed : List (String × ℚ)) (rs : List ItemRecord)
    (b : String) (cost : ℚ) (ppl : List (String × ℤ)) (h : (ppl.map Prod.snd).sum = 0) :
    sharesLoop owed (rs ++ [(b, cost, ppl, false)]) = sharesLoop owed rs := by
  induction rs generalizing owed with
  | nil =>
    simp [sharesLoop, h]
  | cons r rest ih =>
    obtain ⟨rb, rc, rp, ric⟩ := r
    simp only [List.cons_append, sharesLoop]
    cases ric with
    | true =>
      by_cases hlen : rp.length = 0
      · simp [hlen]
      · simp only [if_true, if_neg hlen]
        cases addShares owed (rp.map (fun x => (x.1, rc / (rp.length : ℚ)))) with
        | none => rfl
        | some owed2 => exact ih owed2
    | false =>
      by_cases hq : (rp.map Prod.snd).sum = 0
      · simp only [Bool.false_eq_true, if_false, if_pos hq]
        exact ih owed
      · simp only [Bool.false_eq_true, if_false, if_neg hq]
        cases addShares owed (rp.map (fun x => (x.1, rc / (((rp.map Prod.snd).sum : ℤ) : ℚ) * (x.2 : ℚ)))) with
        | none => rfl
        | some owed2 => exact ih owed2

/-- C5: a Proportional-mode `addItem` whose participant quantities sum to 0
fails silently: the call returns normally (no error surfaced), no detailed
debt is recorded, the record is still appended to the history, the buyer's
recorded payment still grows by `cost`, and `calculateShares` attributes no
owed share from that record to anyone (shares over the ledger equal shares
over the ledger without this record). -/
theorem claim_C5_zero_weight_silent (c : GroupTransactionCalculator) (buyer : String)
    (cost : ℚ) (ppl : List (String × ℤ)) (h : (ppl.map Prod.snd).sum = 0) :
    ∃ c2, addItem c buyer cost ppl false = Except.ok c2 ∧
      c2.detailedDebts = c.detailedDebts ∧
      c2.itemRecords = c.itemRecords ++ [(buyer, cost, ppl, false)] ∧
      getD c2.personPayments buyer = getD c.personPayments buyer + cost ∧
      calculateShares c2 = calculateShares { c2 with itemRecords := c.itemRecords } := by
  have heq : addItem c buyer cost ppl false = Except.ok
      ⟨((keys ppl).foldl addPerson
          { addPerson c buyer with
            personPayments := bump (addPerson c buyer).personPayments buyer cost }).personPayments,
        c.itemRecords ++ [(buyer, cost, ppl, false)],
        c.settlementTransactions,
        c.detailedDebts⟩ := by
    rw [addItem]
    simp only [h, if_pos, Bool.false_eq_true, if_false]
    congr 1
    simp only [GroupTransactionCalculator.mk.injEq, foldl_addPerson_itemRecords,
      foldl_addPerson_settlementTransactions, foldl_addPerson_detailedDebts,
      addPerson_itemRecords, addPerson_settlementTransactions, addPerson_detailedDebts,
      and_self, and_true, true_and]
  refine ⟨_, heq, rfl, rfl, ?_, ?_⟩
  · show getD ((keys ppl).foldl addPerson _).personPayments buyer = _
    rw [getD_foldl_addPerson]
    show getD (bump (addPerson c buyer).personPayments buyer cost) buyer = _
    rw [getD_bump_of_mem _ _ _ (find?_isSome_addPerson_self c buyer), getD_addPerson]
  · show sharesLoop _ (c.itemRecords ++ [(buyer, cost, ppl, false)]) = _
    exact sharesLoop_append_zero_weight _ _ _ _ _ h

/-- Witness for C5 at a concrete input with total weight 0. -/
theorem claim_C5_witness :
    ∃ c2, addItem initCalc "A" 5 [("B", 0)] false = Except.ok c2 ∧
      c2.detailedDebts = initCalc.detailedDebts ∧
      c2.itemRecords = initCalc.itemRecords ++ [("A", 5, [("B", 0)], false)] ∧
      getD c2.personPayments "A" = getD initCalc.personPayments "A" + 5 ∧
      calculateShares c2 = calculateShares { c2 with itemRecords := initCalc.itemRecords } :=
  claim_C5_zero_weight_silent initCalc "A" 5 [("B", 0)] (by decide)

/-! ## Equivalence of the code's search with the single-objective search

`plainSearch` is modelled from the spec (§4.4 and §9): the same move
generation as `evaluateState` but without the maximizing/minimizing
alternation and without the `beta <= alpha` cutoff — "a single-objective
branch-and-bound minimizing transaction count".  Claim C9 states the code's
search is equivalent to it. -/

theorem innerLoop_eq_plain
    (evF : List (String × ℚ) → List (String × ℚ) → List SettleTxn → AB → Score × List SettleTxn)
    (evP : List (String × ℚ) → List (String × ℚ) → List SettleTxn → Score × List SettleTxn)
    (hev : ∀ d2 c2 t2 (b : AB), b ≠ ⊥ → evF d2 c2 t2 b = evP d2 c2 t2)
    (d c : List (String × ℚ)) (t : List SettleTxn) (i : ℕ) (dn : String) (da : ℚ) :
    ∀ (rest : List (ℕ × String × ℚ)) (best : Score × List SettleTxn) (beta : AB),
      beta ≠ ⊥ →
      (innerLoop evF d c t ⊥ i dn da rest best beta).1
          = plainInner evP d c t i dn da rest best ∧
      (innerLoop evF d c t ⊥ i dn da rest best beta).2 ≠ ⊥ := by
  intro rest
  induction rest with
  | nil =>
    intro best beta hb
    exact ⟨rfl, hb⟩
  | cons x rest ih =>
    obtain ⟨j, cn, ca⟩ := x
    intro best beta hb
    simp only [innerLoop, plainInner]
    by_cases hdc : dn = cn
    · rw [if_pos hdc, if_pos hdc]
      exact ih best beta hb
    · rw [if_neg hdc, if_neg hdc]
      rw [hev _ _ _ _ hb]
      set resP := evP (moveDebtors d i dn da (settleAmount da ca))
        (moveCreditors c j cn ca (settleAmount da ca))
        (t ++ [⟨dn, cn, settleAmount da ca⟩]) with hresP
      set best2 := if resP.1 < best.1 then resP else best with hbest2
      have hmin : min beta ((best2.1 : AB)) ≠ ⊥ := by
        rcases min_choice beta ((best2.1 : AB)) with hm | hm
        · rw [hm]; exact hb
        · rw [hm]; exact WithBot.coe_ne_bot
      rw [if_neg (by simp only [le_bot_iff]; exact hmin)]
      exact ih best2 _ hmin

theorem outerLoop_eq_plain
    (evF : List (String × ℚ) → List (String × ℚ) → List SettleTxn → AB → Score × List SettleTxn)
    (evP : List (String × ℚ) → List (String × ℚ) → List SettleTxn → Score × List SettleTxn)
    (hev : ∀ d2 c2 t2 (b : AB), b ≠ ⊥ → evF d2 c2 t2 b = evP d2 c2 t2)
    (d c : List (String × ℚ)) (t : List SettleTxn) :
    ∀ (rest : List (ℕ × String × ℚ)) (best : Score × List SettleTxn) (beta : AB),
      beta ≠ ⊥ →
      outerLoop evF d c t ⊥ rest best beta = plainOuter evP d c t rest best := by
  intro rest
  induction rest with
  | nil => intro best beta hb; rfl
  | cons x rest ih =>
    obtain ⟨i, dn, da⟩ := x
    intro best beta hb
    rw [outerLoop, plainOuter]
    obtain ⟨h1, h2⟩ := innerLoop_eq_plain evF evP hev d c t i dn da c.enum best beta hb
    rw [if_neg (by simp only [le_bot_iff]; exact h2)]
    rw [ih _ _ h2, h1]

theorem evaluateState_eq_plainSearch (fuel : ℕ) :
    ∀ (d c : List (String × ℚ)) (t : List SettleTxn) (depth : ℕ) (beta : AB), beta ≠ ⊥ →
      evaluateState (2 * fuel) d c t depth ⊥ beta true = plainSearch fuel d c t ∧
      evaluateState (2 * fuel + 1) d c t depth ⊥ beta false = plainSearch fuel d c t := by
  induction fuel with
  | zero =>
    intro d c t depth beta hb
    constructor
    · rfl
    · show evaluateState (0 + 1) d c t depth ⊥ beta false = plainSearch 0 d c t
      rw [evaluateState]
      split
      · rfl
      · rfl
  | succ n ih =>
    intro d c t depth beta hb
    have htrue : evaluateState (2 * (n + 1)) d c t depth ⊥ beta true
        = plainSearch (n + 1) d c t := by
      show evaluateState (2 * n + 1 + 1) d c t depth ⊥ beta true = plainSearch (n + 1) d c t
      rw [evaluateState, plainSearch]
      split
      · rfl
      · simp only [if_true]
        exact outerLoop_eq_plain _ _
          (fun d2 c2 t2 b hb2 => (ih d2 c2 t2 (depth + 1) b hb2).2)
          d c t d.enum ((⊤ : Score), t) beta hb
    refine ⟨htrue, ?_⟩
    show evaluateState (2 * (n + 1) + 1) d c t depth ⊥ beta false = plainSearch (n + 1) d c t
    rw [show 2 * (n + 1) + 1 = (2 * (n + 1)) + 1 from rfl, evaluateState]
    split
    · rw [plainSearch]
      rename_i hterm
      rw [if_pos hterm]
    · exact htrue

theorem optimizeTransactions_eq_plain (c : GroupTransactionCalculator)
    (owedAmounts : List (String × ℚ)) :
    optimizeTransactions c owedAmounts = optimizePlain c owedAmounts := by
  rw [optimizeTransactions, optimizePlain]
  split
  · rfl
  · rw [show (2 * ((debtorsOf c owedAmounts).length + (creditorsOf c owedAmounts).length))
        = 2 * ((debtorsOf c owedAmounts).length + (creditorsOf c owedAmounts).length) from rfl]
    rw [(evaluateState_eq_plainSearch
      ((debtorsOf c owedAmounts).length + (creditorsOf c owedAmounts).length)
      (debtorsOf c owedAmounts) (creditorsOf c owedAmounts) [] 0 ⊤ (by simp)).1]

/-- C9: the minimax alternation and the alpha-beta cutoff of `evaluateState`
are vestigial.  With the call-site `alpha = -inf`, `alpha` is never raised, so
`beta <= alpha` never fires, the minimizing flag only flips back, and the
search returns exactly the (score, transaction list) pair of the plain
single-objective minimisation `plainSearch`; consequently
`optimizeTransactions` returns the same result as the plain optimizer. -/
theorem claim_C9_alternation_vestigial (fuel : ℕ) (d c : List (String × ℚ))
    (t : List SettleTxn) (depth : ℕ) (beta : AB) (hb : beta ≠ ⊥) :
    evaluateState (2 * fuel) d c t depth ⊥ beta true = plainSearch fuel d c t ∧
    ∀ (cal : GroupTransactionCalculator) (owed : List (String × ℚ)),
      optimizeTransactions cal owed = optimizePlain cal owed :=
  ⟨(evaluateState_eq_plainSearch fuel d c t depth beta hb).1,
   fun cal owed => optimizeTransactions_eq_plain cal owed⟩

/-- Witness for C9 at a concrete search state. -/
theorem claim_C9_witness :
    evaluateState (2 * 2) [("A", -10)] [("B", 10)] [] 0 ⊥ ⊤ true
      = plainSearch 2 [("A", -10)] [("B", 10)] [] ∧
    ∀ (cal : GroupTransactionCalculator) (owed : List (String × ℚ)),
      optimizeTransactions cal owed = optimizePlain cal owed :=
  claim_C9_alternation_vestigial 2 [("A", -10)] [("B", 10)] [] 0 ⊤ (by simp)

/-! ## Termination of the search (claim C6) -/

theorem enum_mem_lt {α : Type} {l : List α} {i : ℕ} {x : α} (h : (i, x) ∈ l.enum) :
    i < l.length := by
  rw [List.mem_enum_iff_getElem?] at h
  exact (List.getElem?_eq_some.mp h).1

theorem enum_mem_getElem? {α : Type} {l : List α} {i : ℕ} {x : α} (h : (i, x) ∈ l.enum) :
    l[i]? = some x := by
  rw [List.mem_enum_iff_getElem?] at h
  exact h

theorem eps_pos : (0 : ℚ) < eps := by norm_num [eps]

theorem length_moveDebtors_le (d : List (String × ℚ)) (i : ℕ) (dn : String) (da a : ℚ) :
    (moveDebtors d i dn da a).length ≤ d.length := by
  rw [moveDebtors]
  split
  · rw [List.length_eraseIdx]
    split <;> simp_all
  · simp

theorem length_moveCreditors_le (c : List (String × ℚ)) (j : ℕ) (cn : String) (ca a : ℚ) :
    (moveCreditors c j cn ca a).length ≤ c.length := by
  rw [moveCreditors]
  split
  · rw [List.length_eraseIdx]
    split <;> simp_all
  · simp

theorem length_moveDebtors_exact (d : List (String × ℚ)) (i : ℕ) (dn : String) (da a : ℚ)
    (hi : i < d.length) (h0 : da + a = 0) :
    (moveDebtors d i dn da a).length = d.length - 1 := by
  rw [moveDebtors]
  rw [if_pos (by rw [h0]; simpa using eps_pos)]
  rw [List.length_eraseIdx]
  rw [if_pos (by simpa using hi)]
  simp

theorem length_moveCreditors_exact (c : List (String × ℚ)) (j : ℕ) (cn : String) (ca a : ℚ)
    (hj : j < c.length) (h0 : ca - a = 0) :
    (moveCreditors c j cn ca a).length = c.length - 1 := by
  rw [moveCreditors]
  rw [if_pos (by rw [h0]; simpa using eps_pos)]
  rw [List.length_eraseIdx]
  rw [if_pos (by simpa using hj)]
  simp

/-- Each emitted transaction removes at least one party: the transferred
amount `min(-debtor, creditor)` equals one of its arguments, so one side's
updated balance is exactly zero and is popped. -/
theorem move_size (d c : List (String × ℚ)) (i j : ℕ) (dn cn : String) (da ca : ℚ)
    (hi : i < d.length) (hj : j < c.length) :
    (moveDebtors d i dn da (settleAmount da ca)).length
      + (moveCreditors c j cn ca (settleAmount da ca)).length + 1
      ≤ d.length + c.length := by
  rcases min_choice (-da) ca with hm | hm
  · have h0 : da + settleAmount da ca = 0 := by rw [settleAmount, hm]; ring
    have h1 := length_moveDebtors_exact d i dn da (settleAmount da ca) hi h0
    have h2 := length_moveCreditors_le c j cn ca (settleAmount da ca)
    omega
  · have h0 : ca - settleAmount da ca = 0 := by rw [settleAmount, hm]; ring
    have h1 := length_moveCreditors_exact c j cn ca (settleAmount da ca) hj h0
    have h2 := length_moveDebtors_le d i dn da (settleAmount da ca)
    omega

theorem plainInner_congr
    (ev1 ev2 : List (String × ℚ) → List (String × ℚ) → List SettleTxn → Score × List SettleTxn)
    (d c : List (String × ℚ)) (t : List SettleTxn) (i : ℕ) (dn : String) (da : ℚ) :
    ∀ (rest : List (ℕ × String × ℚ)),
      (∀ j cn ca, (j, cn, ca) ∈ rest →
        ev1 (moveDebtors d i dn da (settleAmount da ca))
            (moveCreditors c j cn ca (settleAmount da ca))
            (t ++ [⟨dn, cn, settleAmount da ca⟩])
          = ev2 (moveDebtors d i dn da (settleAmount da ca))
            (moveCreditors c j cn ca (settleAmount da ca))
            (t ++ [⟨dn, cn, settleAmount da ca⟩])) →
      ∀ best, plainInner ev1 d c t i dn da rest best = plainInner ev2 d c t i dn da rest best := by
  intro rest
  induction rest with
  | nil => intro _ best; rfl
  | cons x rest ih =>
    obtain ⟨j, cn, ca⟩ := x
    intro hch best
    simp only [plainInner]
    by_cases hdc : dn = cn
    · rw [if_pos hdc, if_pos hdc]
      exact ih (fun j2 cn2 ca2 hmem => hch j2 cn2 ca2 (List.mem_cons_of_mem _ hmem)) best
    · rw [if_neg hdc, if_neg hdc]
      rw [hch j cn ca (List.mem_cons_self _ _)]
      exact ih (fun j2 cn2 ca2 hmem => hch j2 cn2 ca2 (List.mem_cons_of_mem _ hmem)) _

theorem plainOuter_congr
    (ev1 ev2 : List (String × ℚ) → List (String × ℚ) → List SettleTxn → Score × List SettleTxn)
    (d c : List (String × ℚ)) (t : List SettleTxn) :
    ∀ (rest : List (ℕ × String × ℚ)),
      (∀ i dn da j cn ca, (i, dn, da) ∈ rest → (j, cn, ca) ∈ c.enum →
        ev1 (moveDebtors d i dn da (settleAmount da ca))
            (moveCreditors c j cn ca (settleAmount da ca))
            (t ++ [⟨dn, cn, settleAmount da ca⟩])
          = ev2 (moveDebtors d i dn da (settleAmount da ca))
            (moveCreditors c j cn ca (settleAmount da ca))
            (t ++ [⟨dn, cn, settleAmount da ca⟩])) →
      ∀ best, plainOuter ev1 d c t rest best = plainOuter ev2 d c t rest best := by
  intro rest
  induction rest with
  | nil => intro _ best; rfl
  | cons x rest ih =>
    obtain ⟨i, dn, da⟩ := x
    intro hch best
    simp only [plainOuter]
    rw [plainInner_congr ev1 ev2 d c t i dn da c.enum
      (fun j cn ca hmem => hch i dn da j cn ca (List.mem_cons_self _ _) hmem) best]
    exact ih (fun i2 dn2 da2 j cn ca hm1 hm2 =>
      hch i2 dn2 da2 j cn ca (List.mem_cons_of_mem _ hm1) hm2) _

theorem plainSearch_fuel_succ :
    ∀ (fuel : ℕ) (d c : List (String × ℚ)) (t : List SettleTxn),
      d.length + c.length ≤ fuel →
      plainSearch (fuel + 1) d c t = plainSearch fuel d c t := by
  intro fuel
  induction fuel with
  | zero =>
    intro d c t h
    have hd : d = [] := by
      cases d with
      | nil => rfl
      | cons a l => simp at h
    subst hd
    simp [plainSearch]
  | succ n ih =>
    intro d c t h
    show plainSearch (n + 1 + 1) d c t = plainSearch (n + 1) d c t
    rw [plainSearch, plainSearch]
    split
    · rfl
    · rename_i hterm
      refine plainOuter_congr _ _ d c t d.enum ?_ _
      intro i dn da j cn ca hmem1 hmem2
      have hi := enum_mem_lt hmem1
      have hj := enum_mem_lt hmem2
      have hsz := move_size d c i j dn cn da ca hi hj
      exact ih _ _ _ (by omega)

theorem plainSearch_fuel_high (fuel : ℕ) (d c : List (String × ℚ)) (t : List SettleTxn)
    (h : d.length + c.length ≤ fuel) :
    plainSearch fuel d c t = plainSearch (d.length + c.length) d c t := by
  induction fuel with
  | zero =>
    have : d.length + c.length = 0 := by omega
    rw [this]
  | succ n ih =>
    by_cases hn : d.length + c.length ≤ n
    · rw [plainSearch_fuel_succ n d c t hn]
      exact ih hn
    · have : d.length + c.length = n + 1 := by omega
      rw [this]

/-- C6: the settlement search terminates on every input: each recursive step
that emits a transaction removes at least one party from the debtors or
creditors list — the transferred amount `min(-debtor, creditor)` equals one of
its arguments, so one side's updated balance is exactly zero, inside the 0.01
snapping threshold — and consequently the recursion depth is bounded by
`|debtors| + |creditors|`: giving the fuelled search any emission budget of at
least `|debtors| + |creditors|` (each emission costs the code's recursion two
calls: the minimising one and the flag flip) returns the same result as
exactly that bound. -/
theorem claim_C6_search_terminates
    (d c : List (String × ℚ)) (i j : ℕ) (dn cn : String) (da ca : ℚ)
    (t : List SettleTxn) (fuel depth : ℕ) (beta : AB)
    (hi : i < d.length) (hj : j < c.length)
    (hfuel : d.length + c.length ≤ fuel) (hb : beta ≠ ⊥) :
    (moveDebtors d i dn da (settleAmount da ca)).length
      + (moveCreditors c j cn ca (settleAmount da ca)).length + 1
      ≤ d.length + c.length ∧
    plainSearch fuel d c t = plainSearch (d.length + c.length) d c t ∧
    evaluateState (2 * fuel) d c t depth ⊥ beta true
      = evaluateState (2 * (d.length + c.length)) d c t depth ⊥ beta true := by
  refine ⟨move_size d c i j dn cn da ca hi hj, plainSearch_fuel_high fuel d c t hfuel, ?_⟩
  rw [(evaluateState_eq_plainSearch fuel d c t depth beta hb).1,
    (evaluateState_eq_plainSearch (d.length + c.length) d c t depth beta hb).1]
  exact plainSearch_fuel_high fuel d c t hfuel

/-- Witness for C6 at a concrete state. -/
theorem claim_C6_witness :
    (moveDebtors [("A", -10)] 0 "A" (-10) (settleAmount (-10) 10)).length
      + (moveCreditors [("B", 10)] 0 "B" 10 (settleAmount (-10) 10)).length + 1
      ≤ [(("A" : String), (-10 : ℚ))].length + [(("B" : String), (10 : ℚ))].length ∧
    plainSearch 5 [("A", -10)] [("B", 10)] [] = plainSearch 2 [("A", -10)] [("B", 10)] [] ∧
    evaluateState (2 * 5) [("A", -10)] [("B", 10)] [] 0 ⊥ ⊤ true
      = evaluateState (2 * 2) [("A", -10)] [("B", 10)] [] 0 ⊥ ⊤ true :=
  claim_C6_search_terminates [("A", -10)] [("B", 10)] 0 0 "A" "B" (-10) 10 [] 5 0 ⊤
    (by decide) (by decide) (by decide) (by simp)

/-! ## Case analysis and bounds for the plain search loops -/

theorem plainInner_cases
    (ev : List (String × ℚ) → List (String × ℚ) → List SettleTxn → Score × List SettleTxn)
    (d c : List (String × ℚ)) (t : List SettleTxn) (i : ℕ) (dn : String) (da : ℚ) :
    ∀ (rest : List (ℕ × String × ℚ)) (best : Score × List SettleTxn),
      plainInner ev d c t i dn da rest best = best ∨
      ∃ j cn ca, (j, cn, ca) ∈ rest ∧ dn ≠ cn ∧
        plainInner ev d c t i dn da rest best
          = ev (moveDebtors d i dn da (settleAmount da ca))
              (moveCreditors c j cn ca (settleAmount da ca))
              (t ++ [⟨dn, cn, settleAmount da ca⟩]) := by
  intro rest
  induction rest with
  | nil => intro best; exact Or.inl rfl
  | cons x rest ih =>
    obtain ⟨j, cn, ca⟩ := x
    intro best
    simp only [plainInner]
    by_cases hdc : dn = cn
    · rw [if_pos hdc]
      rcases ih best with h | ⟨j2, cn2, ca2, hmem, hne, h⟩
      · exact Or.inl h
      · exact Or.inr ⟨j2, cn2, ca2, List.mem_cons_of_mem _ hmem, hne, h⟩
    · rw [if_neg hdc]
      rcases ih (if (ev (moveDebtors d i dn da (settleAmount da ca))
          (moveCreditors c j cn ca (settleAmount da ca))
          (t ++ [⟨dn, cn, settleAmount da ca⟩])).1 < best.1 then
            ev (moveDebtors d i dn da (settleAmount da ca))
              (moveCreditors c j cn ca (settleAmount da ca))
              (t ++ [⟨dn, cn, settleAmount da ca⟩]) else best) with h | ⟨j2, cn2, ca2, hmem, hne, h⟩
      · rw [h]
        split
        · exact Or.inr ⟨j, cn, ca, List.mem_cons_self _ _, hdc, rfl⟩
        · exact Or.inl rfl
      · exact Or.inr ⟨j2, cn2, ca2, List.mem_cons_of_mem _ hmem, hne, h⟩

theorem plainOuter_cases
    (ev : List (String × ℚ) → List (String × ℚ) → List SettleTxn → Score × List SettleTxn)
    (d c : List (String × ℚ)) (t : List SettleTxn) :
    ∀ (rest : List (ℕ × String × ℚ)) (best : Score × List SettleTxn),
      plainOuter ev d c t rest best = best ∨
      ∃ i dn da j cn ca, (i, dn, da) ∈ rest ∧ (j, cn, ca) ∈ c.enum ∧ dn ≠ cn ∧
        plainOuter ev d c t rest best
          = ev (moveDebtors d i dn da (settleAmount da ca))
              (moveCreditors c j cn ca (settleAmount da ca))
              (t ++ [⟨dn, cn, settleAmount da ca⟩]) := by
  intro rest
  induction rest with
  | nil => intro best; exact Or.inl rfl
  | cons x rest ih =>
    obtain ⟨i, dn, da⟩ := x
    intro best
    simp only [plainOuter]
    rcases ih (plainInner ev d c t i dn da c.enum best) with h | ⟨i2, dn2, da2, j2, cn2, ca2, hm1, hm2, hne, h⟩
    · rw [h]
      rcases plainInner_cases ev d c t i dn da c.enum best with h2 | ⟨j, cn, ca, hmem, hne, h2⟩
      · exact Or.inl h2
      · exact Or.inr ⟨i, dn, da, j, cn, ca, List.mem_cons_self _ _, hmem, hne, h2⟩
    · exact Or.inr ⟨i2, dn2, da2, j2, cn2, ca2, List.mem_cons_of_mem _ hm1, hm2, hne, h⟩

theorem plainInner_le
    (ev : List (String × ℚ) → List (String × ℚ) → List SettleTxn → Score × List SettleTxn)
    (d c : List (String × ℚ)) (t : List SettleTxn) (i : ℕ) (dn : String) (da : ℚ) :
    ∀ (rest : List (ℕ × String × ℚ)) (best : Score × List SettleTxn),
      (plainInner ev d c t i dn da rest best).1 ≤ best.1 ∧
      ∀ j cn ca, (j, cn, ca) ∈ rest → dn ≠ cn →
        (plainInner ev d c t i dn da rest best).1
          ≤ (ev (moveDebtors d i dn da (settleAmount da ca))
              (moveCreditors c j cn ca (settleAmount da ca))
              (t ++ [⟨dn, cn, settleAmount da ca⟩])).1 := by
  intro rest
  induction rest with
  | nil =>
    intro best
    refine ⟨le_refl _, ?_⟩
    intro j cn ca hmem
    simp at hmem
  | cons x rest ih =>
    obtain ⟨j0, cn0, ca0⟩ := x
    intro best
    simp only [plainInner]
    by_cases hdc : dn = cn0
    · rw [if_pos hdc]
      refine ⟨(ih best).1, ?_⟩
      intro j cn ca hmem hne
      rcases List.mem_cons.mp hmem with hh | hh
      · exfalso
        have : cn0 = cn := by
          have := congrArg (fun y => y.2.1) hh
          simpa using this.symm
        exact hne (hdc.trans this)
      · exact (ih best).2 j cn ca hh hne
    · rw [if_neg hdc]
      have hb2 : (if (ev (moveDebtors d i dn da (settleAmount da ca0))
          (moveCreditors c j0 cn0 ca0 (settleAmount da ca0))
          (t ++ [⟨dn, cn0, settleAmount da ca0⟩])).1 < best.1 then
            ev (moveDebtors d i dn da (settleAmount da ca0))
              (moveCreditors c j0 cn0 ca0 (settleAmount da ca0))
              (t ++ [⟨dn, cn0, settleAmount da ca0⟩]) else best).1 ≤ best.1 ∧
          (if (ev (moveDebtors d i dn da (settleAmount da ca0))
          (moveCreditors c j0 cn0 ca0 (settleAmount da ca0))
          (t ++ [⟨dn, cn0, settleAmount da ca0⟩])).1 < best.1 then
            ev (moveDebtors d i dn da (settleAmount da ca0))
              (moveCreditors c j0 cn0 ca0 (settleAmount da ca0))
              (t ++ [⟨dn, cn0, settleAmount da ca0⟩]) else best).1
            ≤ (ev (moveDebtors d i dn da (settleAmount da ca0))
              (moveCreditors c j0 cn0 ca0 (settleAmount da ca0))
              (t ++ [⟨dn, cn0, settleAmount da ca0⟩])).1 := by
        split
        · rename_i hlt
          exact ⟨le_of_lt hlt, le_refl _⟩
        · rename_i hlt
          exact ⟨le_refl _, le_of_not_lt hlt⟩
      refine ⟨le_trans (ih _).1 hb2.1, ?_⟩
      intro j cn ca hmem hne
      rcases List.mem_cons.mp hmem with hh | hh
      · have hj : j = j0 ∧ cn = cn0 ∧ ca = ca0 := by
          refine ⟨congrArg (fun y => y.1) hh, ?_, ?_⟩
          · have := congrArg (fun y => y.2.1) hh; simpa using this
          · have := congrArg (fun y => y.2.2) hh; simpa using this
        obtain ⟨hj1, hj2, hj3⟩ := hj
        subst hj1; subst hj2; subst hj3
        exact le_trans (ih _).1 hb2.2
      · exact (ih _).2 j cn ca hh hne

theorem plainOuter_le
    (ev : List (String × ℚ) → List (String × ℚ) → List SettleTxn → Score × List SettleTxn)
    (d c : List (String × ℚ)) (t : List SettleTxn) :
    ∀ (rest : List (ℕ × String × ℚ)) (best : Score × List SettleTxn),
      (plainOuter ev d c t rest best).1 ≤ best.1 ∧
      ∀ i dn da j cn ca, (i, dn, da) ∈ rest → (j, cn, ca) ∈ c.enum → dn ≠ cn →
        (plainOuter ev d c t rest best).1
          ≤ (ev (moveDebtors d i dn da (settleAmount da ca))
              (moveCreditors c j cn ca (settleAmount da ca))
              (t ++ [⟨dn, cn, settleAmount da ca⟩])).1 := by
  intro rest
  induction rest with
  | nil =>
    intro best
    refine ⟨le_refl _, ?_⟩
    intro i dn da j cn ca hmem
    simp at hmem
  | cons x rest ih =>
    obtain ⟨i0, dn0, da0⟩ := x
    intro best
    simp only [plainOuter]
    refine ⟨le_trans (ih _).1 (plainInner_le ev d c t i0 dn0 da0 c.enum best).1, ?_⟩
    intro i dn da j cn ca hmem1 hmem2 hne
    rcases List.mem_cons.mp hmem1 with hh | hh
    · have hi : i = i0 ∧ dn = dn0 ∧ da = da0 := by
        refine ⟨congrArg (fun y => y.1) hh, ?_, ?_⟩
        · have := congrArg (fun y => y.2.1) hh; simpa using this
        · have := congrArg (fun y => y.2.2) hh; simpa using this
      obtain ⟨h1, h2, h3⟩ := hi
      subst h1; subst h2; subst h3
      exact le_trans (ih _).1 ((plainInner_le ev d c t i dn da c.enum best).2 j cn ca hmem2 hne)
    · exact (ih _).2 i dn da j cn ca hh hmem2 hne

/-! ## Schedules of the search's move space -/

theorem set_getElem?_self {α : Type} (l : List α) (i : ℕ) (a : α) (h : l[i]? = some a) :
    l.set i a = l := by
  have hi : i < l.length := (List.getElem?_eq_some.mp h).1
  apply List.ext_getElem?
  intro n
  rw [List.getElem?_set]
  split
  · rename_i hin
    subst hin
    exact h.symm
  · rfl

theorem keys_moveDebtors_sublist (ds : List (String × ℚ)) (i : ℕ) (dn : String) (da a : ℚ)
    (h : ds[i]? = some (dn, da)) :
    (keys (moveDebtors ds i dn da a)).Sublist (keys ds) := by
  have hset : keys (ds.set i (dn, da + a)) = keys ds := by
    unfold keys
    rw [List.map_set]
    apply set_getElem?_self
    rw [List.getElem?_map, h]
    rfl
  rw [moveDebtors]
  split
  · have h1 : (keys ((ds.set i (dn, da + a)).eraseIdx i)).Sublist
        (keys (ds.set i (dn, da + a))) :=
      List.Sublist.map Prod.fst (List.eraseIdx_sublist _ i)
    rw [hset] at h1
    exact h1
  · rw [hset]

theorem keys_moveCreditors_sublist (cs : List (String × ℚ)) (j : ℕ) (cn : String) (ca a : ℚ)
    (h : cs[j]? = some (cn, ca)) :
    (keys (moveCreditors cs j cn ca a)).Sublist (keys cs) := by
  have hset : keys (cs.set j (cn, ca - a)) = keys cs := by
    unfold keys
    rw [List.map_set]
    apply set_getElem?_self
    rw [List.getElem?_map, h]
    rfl
  rw [moveCreditors]
  split
  · have h1 : (keys ((cs.set j (cn, ca - a)).eraseIdx j)).Sublist
        (keys (cs.set j (cn, ca - a))) :=
      List.Sublist.map Prod.fst (List.eraseIdx_sublist _ j)
    rw [hset] at h1
    exact h1
  · rw [hset]

theorem keys_append {β : Type} (l1 l2 : List (String × β)) :
    keys (l1 ++ l2) = keys l1 ++ keys l2 := by
  unfold keys
  exact List.map_append _ _ _

theorem NoDupKeys_move (ds cs : List (String × ℚ)) (i j : ℕ) (dn cn : String) (da ca a : ℚ)
    (hd : ds[i]? = some (dn, da)) (hc : cs[j]? = some (cn, ca))
    (hnd : NoDupKeys (ds ++ cs)) :
    NoDupKeys (moveDebtors ds i dn da a ++ moveCreditors cs j cn ca a) := by
  unfold NoDupKeys at hnd ⊢
  rw [keys_append] at hnd ⊢
  exact List.Sublist.nodup
    (List.Sublist.append (keys_moveDebtors_sublist ds i dn da a hd)
      (keys_moveCreditors_sublist cs j cn ca a hc)) hnd

/-- The plain search realises a schedule of its move space: on a state with
distinct keys, the returned pair is `(t.length + T.length, t ++ T)` for some
schedule `T`. -/
theorem plainSearch_achieves :
    ∀ (fuel : ℕ) (ds cs : List (String × ℚ)) (t : List SettleTxn),
      ds.length + cs.length ≤ fuel →
      NoDupKeys (ds ++ cs) →
      ∃ T, plainSearch fuel ds cs t = (((t.length + T.length : ℕ) : Score), t ++ T)
        ∧ SettlePath ds cs T := by
  intro fuel
  induction fuel with
  | zero =>
    intro ds cs t h hnd
    have hd : ds = [] := by
      cases ds with
      | nil => rfl
      | cons a l => simp at h
    refine ⟨[], ?_, SettlePath.terminal ds cs (Or.inl hd)⟩
    simp [plainSearch]
  | succ n ih =>
    intro ds cs t h hnd
    by_cases hterm : ds = [] ∨ cs = []
    · refine ⟨[], ?_, SettlePath.terminal ds cs hterm⟩
      rw [plainSearch, if_pos hterm]
      simp
    · push_neg at hterm
      obtain ⟨hd, hc⟩ := hterm
      rw [plainSearch, if_neg (by push_neg; exact ⟨hd, hc⟩)]
      rcases plainOuter_cases (fun d2 c2 t2 => plainSearch n d2 c2 t2) ds cs t ds.enum
          ((⊤ : Score), t)
        with hcase | ⟨i, dn, da, j, cn, ca, hmem1, hmem2, hne, hcase⟩
      · exfalso
        obtain ⟨x, d2, hxd⟩ := List.exists_cons_of_ne_nil hd
        obtain ⟨y, c2, hyc⟩ := List.exists_cons_of_ne_nil hc
        have hmx : (0, x.1, x.2) ∈ ds.enum := by
          rw [hxd, List.enum_cons]
          exact List.mem_cons.mpr (Or.inl (by simp))
        have hmy : (0, y.1, y.2) ∈ cs.enum := by
          rw [hyc, List.enum_cons]
          exact List.mem_cons.mpr (Or.inl (by simp))
        have hxy : x.1 ≠ y.1 := by
          intro he
          rw [NoDupKeys, keys_append, hxd, hyc, List.nodup_append] at hnd
          have h1 : x.1 ∈ keys (x :: d2) := by simp [keys]
          have h2 : x.1 ∈ keys (y :: c2) := by rw [he]; simp [keys]
          exact hnd.2.2 h1 h2
        have hb := (plainOuter_le (fun d2 c2 t2 => plainSearch n d2 c2 t2) ds cs t ds.enum
          ((⊤ : Score), t)).2 0 x.1 x.2 0 y.1 y.2 hmx hmy hxy
        rw [hcase] at hb
        have hi0 : (0 : ℕ) < ds.length := by rw [hxd]; simp
        have hj0 : (0 : ℕ) < cs.length := by rw [hyc]; simp
        have hd0 : ds[0]? = some (x.1, x.2) := by rw [hxd]; simp
        have hc0 : cs[0]? = some (y.1, y.2) := by rw [hyc]; simp
        have hsz := move_size ds cs 0 0 x.1 y.1 x.2 y.2 hi0 hj0
        have hnd2 := NoDupKeys_move ds cs 0 0 x.1 y.1 x.2 y.2 (settleAmount x.2 y.2) hd0 hc0 hnd
        obtain ⟨T2, hval, _⟩ := ih (moveDebtors ds 0 x.1 x.2 (settleAmount x.2 y.2))
          (moveCreditors cs 0 y.1 y.2 (settleAmount x.2 y.2))
          (t ++ [⟨x.1, y.1, settleAmount x.2 y.2⟩]) (by omega) hnd2
        rw [hval] at hb
        simp at hb
      · have hi := enum_mem_lt hmem1
        have hj := enum_mem_lt hmem2
        have hd0 := enum_mem_getElem? hmem1
        have hc0 := enum_mem_getElem? hmem2
        have hsz := move_size ds cs i j dn cn da ca hi hj
        have hnd2 := NoDupKeys_move ds cs i j dn cn da ca (settleAmount da ca) hd0 hc0 hnd
        obtain ⟨T2, hval, hpath⟩ := ih (moveDebtors ds i dn da (settleAmount da ca))
          (moveCreditors cs j cn ca (settleAmount da ca))
          (t ++ [⟨dn, cn, settleAmount da ca⟩]) (by omega) hnd2
        refine ⟨SettleTxn.mk dn cn (settleAmount da ca) :: T2, ?_,
          SettlePath.step ds cs i j dn cn da ca T2 hd0 hc0 hne hpath⟩
        rw [hcase, hval]
        have harith : (t ++ [SettleTxn.mk dn cn (settleAmount da ca)]).length + T2.length
            = t.length + (SettleTxn.mk dn cn (settleAmount da ca) :: T2).length := by
          simp
          omega
        rw [harith]
        simp

/-- The plain search is optimal over its move space: any schedule bounds the
returned score from above. -/
theorem plainSearch_le_path :
    ∀ (fuel : ℕ) (ds cs : List (String × ℚ)) (t : List SettleTxn) (T : List SettleTxn),
      SettlePath ds cs T →
      (plainSearch fuel ds cs t).1 ≤ ((t.length + T.length : ℕ) : Score) := by
  intro fuel
  induction fuel with
  | zero =>
    intro ds cs t T _
    show ((t.length : ℕ) : Score) ≤ _
    exact_mod_cast Nat.le_add_right t.length T.length
  | succ n ih =>
    intro ds cs t T hp
    cases hp with
    | terminal ds cs hterm =>
      rw [plainSearch, if_pos hterm]
      show ((t.length : ℕ) : Score) ≤ _
      exact_mod_cast Nat.le_add_right t.length _
    | step ds cs i j dn cn da ca T2 hd hc hne hrest =>
      have hi : i < ds.length := (List.getElem?_eq_some.mp hd).1
      have hj : j < cs.length := (List.getElem?_eq_some.mp hc).1
      have hdne : ¬(ds = [] ∨ cs = []) := by
        rintro (h1 | h1)
        · subst h1; simp at hi
        · subst h1; simp at hj
      rw [plainSearch, if_neg hdne]
      have hmem1 : (i, dn, da) ∈ ds.enum := by
        rw [List.mem_enum_iff_getElem?]
        exact hd
      have hmem2 : (j, cn, ca) ∈ cs.enum := by
        rw [List.mem_enum_iff_getElem?]
        exact hc
      have hb := (plainOuter_le (fun d2 c2 t2 => plainSearch n d2 c2 t2) ds cs t ds.enum
        ((⊤ : Score), t)).2 i dn da j cn ca hmem1 hmem2 hne
      refine le_trans hb ?_
      have hrec := ih (moveDebtors ds i dn da (settleAmount da ca))
        (moveCreditors cs j cn ca (settleAmount da ca))
        (t ++ [⟨dn, cn, settleAmount da ca⟩]) T2 hrest
      have harith : (t ++ [SettleTxn.mk dn cn (settleAmount da ca)]).length + T2.length
          = t.length + (SettleTxn.mk dn cn (settleAmount da ca) :: T2).length := by
        simp
        omega
      rw [harith] at hrec
      exact hrec

/-! ## Distinct keys of the snapped debtor/creditor lists -/

theorem keys_balancesOf (cal : GroupTransactionCalculator) (owed : List (String × ℚ)) :
    keys (balancesOf cal owed) = keys cal.personPayments := by
  unfold balancesOf keys
  rw [List.map_map]
  rfl

theorem keys_snapBalances (b : List (String × ℚ)) :
    keys (snapBalances b) = keys b := by
  unfold snapBalances keys
  rw [List.map_map]
  apply List.map_congr_left
  intro x _
  show (if |x.2| < eps then (x.1, (0 : ℚ)) else x).1 = x.1
  split <;> rfl

theorem keys_nodup_eq {l : List (String × ℚ)} (h : NoDupKeys l) {x y : String × ℚ}
    (hx : x ∈ l) (hy : y ∈ l) (hk : x.1 = y.1) : x = y := by
  induction l with
  | nil => simp at hx
  | cons z r ih =>
    simp only [NoDupKeys, keys, List.map_cons, List.nodup_cons] at h
    rcases List.mem_cons.mp hx with hxz | hx2
    · rcases List.mem_cons.mp hy with hyz | hy2
      · rw [hxz, hyz]
      · exfalso
        apply h.1
        have hzy : z.1 = y.1 := by rw [← hxz]; exact hk
        rw [hzy]
        exact List.mem_map_of_mem Prod.fst hy2
    · rcases List.mem_cons.mp hy with hyz | hy2
      · exfalso
        apply h.1
        rw [hyz] at hk
        rw [← hk]
        exact List.mem_map_of_mem Prod.fst hx2
      · exact ih (by simpa [NoDupKeys, keys] using h.2) hx2 hy2

theorem NoDupKeys_debtors_creditors (cal : GroupTransactionCalculator)
    (owed : List (String × ℚ)) (h : NoDupKeys cal.personPayments) :
    NoDupKeys (debtorsOf cal owed ++ creditorsOf cal owed) := by
  have hsnap : NoDupKeys (snapBalances (balancesOf cal owed)) := by
    unfold NoDupKeys
    rw [keys_snapBalances, keys_balancesOf]
    exact h
  unfold NoDupKeys
  rw [keys_append, List.nodup_append]
  refine ⟨?_, ?_, ?_⟩
  · exact List.Sublist.nodup
      (List.Sublist.map Prod.fst (List.filter_sublist _)) hsnap
  · exact List.Sublist.nodup
      (List.Sublist.map Prod.fst (List.filter_sublist _)) hsnap
  · intro a ha1 ha2
    obtain ⟨x, hx, hxa⟩ := List.mem_map.mp ha1
    obtain ⟨y, hy, hya⟩ := List.mem_map.mp ha2
    obtain ⟨hxmem, hxp⟩ := List.mem_filter.mp hx
    obtain ⟨hymem, hyp⟩ := List.mem_filter.mp hy
    have hxy : x = y := keys_nodup_eq hsnap hxmem hymem (hxa.trans hya.symm)
    rw [hxy] at hxp
    have h1 : y.2 < 0 := by simpa using hxp
    have h2 : 0 < y.2 := by simpa using hyp
    exact absurd h2 (not_lt.mpr (le_of_lt h1))

/-! ## Claim C2: minimality of the returned transaction list -/

/-- C2 (amended): the optimizer's returned list is of minimal length among
the search's own move space: it is itself a `SettlePath` schedule of the
snapped debtor/creditor state, and no `SettlePath` schedule reaching a
terminal state is shorter.  Minimality among arbitrary ordered transaction
lists — the claim as written — is refuted by `claim_C2_counterexample`. -/
theorem claim_C2_minimal_in_move_space (cal : GroupTransactionCalculator)
    (owed : List (String × ℚ)) (hnd : NoDupKeys cal.personPayments) :
    SettlePath (debtorsOf cal owed) (creditorsOf cal owed)
      (optimizeTransactions cal owed).settlementTransactions ∧
    ∀ T, SettlePath (debtorsOf cal owed) (creditorsOf cal owed) T →
      (optimizeTransactions cal owed).settlementTransactions.length ≤ T.length := by
  rw [optimizeTransactions_eq_plain, optimizePlain]
  by_cases hterm : debtorsOf cal owed = [] ∨ creditorsOf cal owed = []
  · rw [if_pos hterm]
    exact ⟨SettlePath.terminal _ _ hterm, fun T _ => by simp⟩
  · rw [if_neg hterm]
    have hnd2 := NoDupKeys_debtors_creditors cal owed hnd
    obtain ⟨T, hval, hpath⟩ := plainSearch_achieves
      ((debtorsOf cal owed).length + (creditorsOf cal owed).length)
      (debtorsOf cal owed) (creditorsOf cal owed) [] (le_refl _) hnd2
    constructor
    · show SettlePath _ _ (plainSearch _ _ _ []).2
      rw [hval]
      simpa using hpath
    · intro T2 hp2
      have hle := plainSearch_le_path
        ((debtorsOf cal owed).length + (creditorsOf cal owed).length)
        (debtorsOf cal owed) (creditorsOf cal owed) [] T2 hp2
      rw [hval] at hle
      show (plainSearch _ _ _ []).2.length ≤ _
      rw [hval]
      simp only [List.nil_append, List.length_nil, Nat.zero_add] at hle ⊢
      exact_mod_cast hle

/-- Witness for C2 (amended) at a concrete two-person ledger. -/
theorem claim_C2_witness :
    SettlePath (debtorsOf ⟨[("A", -10), ("B", 10)], [], [], []⟩ [])
      (creditorsOf ⟨[("A", -10), ("B", 10)], [], [], []⟩ [])
      (optimizeTransactions ⟨[("A", -10), ("B", 10)], [], [], []⟩ []).settlementTransactions ∧
    ∀ T, SettlePath (debtorsOf ⟨[("A", -10), ("B", 10)], [], [], []⟩ [])
        (creditorsOf ⟨[("A", -10), ("B", 10)], [], [], []⟩ []) T →
      (optimizeTransactions ⟨[("A", -10), ("B", 10)], [], [], []⟩
          []).settlementTransactions.length ≤ T.length :=
  claim_C2_minimal_in_move_space ⟨[("A", -10), ("B", 10)], [], [], []⟩ [] (by decide)

/-- C2 counterexample: on the balance map A: -0.10, B: -0.03, C: +0.085,
D: +0.045 the optimizer returns three transactions, while the two
transactions A pays C 0.092 and B pays D 0.0375 already drive every balance
within 0.01 of zero — so the returned list is not of minimal length among
ordered transaction lists. -/
theorem claim_C2_counterexample :
    ((optimizeTransactions
        ⟨[("A", -1/10), ("B", -3/100), ("C", 85/1000), ("D", 45/1000)], [], [], []⟩
        []).settlementTransactions).length = 3 ∧
    ([⟨"A", "C", 92/1000⟩, ⟨"B", "D", 375/10000⟩] : List SettleTxn).length = 2 ∧
    AllSettled (applyTxns [("A", -1/10), ("B", -3/100), ("C", 85/1000), ("D", 45/1000)]
      [⟨"A", "C", 92/1000⟩, ⟨"B", "D", 375/10000⟩]) :=
  ⟨by with_unfolding_all decide, rfl, by with_unfolding_all decide⟩

/-! ## Claim C7: no transaction from a person to themselves -/

theorem plainSearch_txns_distinct :
    ∀ (fuel : ℕ) (ds cs : List (String × ℚ)) (t : List SettleTxn),
      (∀ τ ∈ t, τ.debtor ≠ τ.creditor) →
      ∀ τ ∈ (plainSearch fuel ds cs t).2, τ.debtor ≠ τ.creditor := by
  intro fuel
  induction fuel with
  | zero => intro ds cs t ht τ hmem; exact ht τ hmem
  | succ n ih =>
    intro ds cs t ht
    rw [plainSearch]
    split
    · exact ht
    · rcases plainOuter_cases (fun d2 c2 t2 => plainSearch n d2 c2 t2) ds cs t ds.enum
          ((⊤ : Score), t)
        with hcase | ⟨i, dn, da, j, cn, ca, hm1, hm2, hne, hcase⟩
      · rw [hcase]; exact ht
      · rw [hcase]
        apply ih
        intro τ hmem
        rcases List.mem_append.mp hmem with hh | hh
        · exact ht τ hh
        · rw [List.mem_singleton] at hh
          subst hh
          exact hne

/-- C7: for every input, no transaction in the optimizer's returned list has
the same person as payer and payee (the `debtorName == creditorName` guard
skips such pairs before any transaction is emitted). -/
theorem claim_C7_no_self_pay (cal : GroupTransactionCalculator)
    (owed : List (String × ℚ)) :
    ∀ τ ∈ (optimizeTransactions cal owed).settlementTransactions,
      τ.debtor ≠ τ.creditor := by
  rw [optimizeTransactions_eq_plain, optimizePlain]
  split
  · intro τ hmem
    simp at hmem
  · exact plainSearch_txns_distinct _ _ _ _ (fun τ h => absurd h (List.not_mem_nil τ))

/-- Witness for C7: the concrete two-person ledger produces the transaction
"A pays B 10", and the theorem yields its endpoints distinct. -/
theorem claim_C7_witness : ("A" : String) ≠ "B" :=
  claim_C7_no_self_pay ⟨[("A", -10), ("B", 10)], [], [], []⟩ [] ⟨"A", "B", 10⟩
    (by with_unfolding_all decide)

/-! ## Whole-cent rationals -/

theorem isCents_iff (q : ℚ) : IsCents q ↔ ∃ k : ℤ, q = (k : ℚ) / 100 := by
  constructor
  · intro h
    refine ⟨(q * 100).num, ?_⟩
    have h2 : (((q * 100).num : ℤ) : ℚ) = q * 100 := (Rat.den_eq_one_iff _).mp h
    rw [h2]
    ring
  · rintro ⟨k, rfl⟩
    unfold IsCents
    have h3 : (k : ℚ) / 100 * 100 = (k : ℚ) := by
      field_simp
    rw [h3]
    exact Rat.den_intCast k

theorem IsCents.zero : IsCents 0 := by
  rw [isCents_iff]
  exact ⟨0, by norm_num⟩

theorem IsCents.add {a b : ℚ} (ha : IsCents a) (hb : IsCents b) : IsCents (a + b) := by
  rw [isCents_iff] at ha hb ⊢
  obtain ⟨k1, rfl⟩ := ha
  obtain ⟨k2, rfl⟩ := hb
  refine ⟨k1 + k2, ?_⟩
  push_cast
  ring

theorem IsCents.neg {a : ℚ} (ha : IsCents a) : IsCents (-a) := by
  rw [isCents_iff] at ha ⊢
  obtain ⟨k, rfl⟩ := ha
  refine ⟨-k, ?_⟩
  push_cast
  ring

theorem IsCents.sub {a b : ℚ} (ha : IsCents a) (hb : IsCents b) : IsCents (a - b) := by
  rw [sub_eq_add_neg]
  exact ha.add hb.neg

theorem isCents_settleAmount {da ca : ℚ} (hda : IsCents da) (hca : IsCents ca) :
    IsCents (settleAmount da ca) := by
  rw [settleAmount]
  rcases min_choice (-da) ca with hm | hm <;> rw [hm]
  · exact hda.neg
  · exact hca

theorem IsCents.eq_zero {q : ℚ} (h : IsCents q) (he : |q| < eps) : q = 0 := by
  rw [isCents_iff] at h
  obtain ⟨k, rfl⟩ := h
  rw [abs_div] at he
  have h100 : |(100 : ℚ)| = 100 := by norm_num
  rw [h100, eps] at he
  have hk : |(k : ℚ)| < 1 := by
    have : (0 : ℚ) < 100 := by norm_num
    calc |(k : ℚ)| = |(k : ℚ)| / 100 * 100 := by field_simp
    _ < 1 / 100 * 100 := by
        apply mul_lt_mul_of_pos_right he this
    _ = 1 := by norm_num
  have hk2 : |k| < 1 := by
    rw [← Int.cast_abs] at hk
    exact_mod_cast hk
  have hk0 : k = 0 := by
    rw [abs_lt] at hk2
    omega
  rw [hk0]
  norm_num

/-! ## Key-indexed reading of the working lists -/

theorem getD_eq_zero_of_not_mem (l : List (String × ℚ)) (p : String) (h : p ∉ keys l) :
    getD l p = 0 := by
  rw [getD_eq]
  have : l.find? (fun x => x.1 == p) = none := by
    rw [List.find?_eq_none]
    intro x hx hbeq
    exact h (by
      have : x.1 = p := by simpa using hbeq
      rw [← this]
      exact List.mem_map_of_mem Prod.fst hx)
  rw [this]
  rfl

theorem getD_cases (l : List (String × ℚ)) (p : String) (P : ℚ → Prop)
    (h0 : P 0) (h : ∀ x ∈ l, P x.2) : P (getD l p) := by
  rw [getD_eq]
  cases hf : l.find? (fun x => x.1 == p) with
  | none => exact h0
  | some x => exact h x (List.mem_of_find?_eq_some hf)

theorem getD_of_getElem? :
    ∀ (l : List (String × ℚ)) (i : ℕ) (k : String) (v : ℚ),
      NoDupKeys l → l[i]? = some (k, v) → getD l k = v := by
  intro l
  induction l with
  | nil => intro i k v _ h; simp at h
  | cons z r ih =>
    intro i k v hnd h
    simp only [NoDupKeys, keys, List.map_cons, List.nodup_cons] at hnd
    cases i with
    | zero =>
      simp only [List.getElem?_cons_zero, Option.some.injEq] at h
      subst h
      simp [getD_cons]
    | succ n =>
      have h2 : r[n]? = some (k, v) := by simpa using h
      have hkz : z.1 ≠ k := by
        intro he
        apply hnd.1
        rw [he]
        exact List.mem_map_of_mem Prod.fst (List.getElem?_mem h2)
      rw [getD_cons]
      have hb : (z.1 == k) = false := beq_eq_false_iff_ne.mpr hkz
      rw [hb]
      simp only [Bool.false_eq_true, if_false]
      exact ih n k v (by simpa [NoDupKeys, keys] using hnd.2) h2

theorem keys_set_key (l : List (String × ℚ)) (i : ℕ) (k : String) (w v : ℚ)
    (h : l[i]? = some (k, w)) : keys (l.set i (k, v)) = keys l := by
  unfold keys
  rw [List.map_set]
  apply set_getElem?_self
  rw [List.getElem?_map, h]
  rfl

theorem getD_set :
    ∀ (l : List (String × ℚ)) (i : ℕ) (k : String) (w v : ℚ) (p : String),
      NoDupKeys l → l[i]? = some (k, w) →
      getD (l.set i (k, v)) p = if p = k then v else getD l p := by
  intro l
  induction l with
  | nil => intro i k w v p _ h; simp at h
  | cons z r ih =>
    intro i k w v p hnd h
    simp only [NoDupKeys, keys, List.map_cons, List.nodup_cons] at hnd
    cases i with
    | zero =>
      simp only [List.getElem?_cons_zero, Option.some.injEq] at h
      subst h
      rw [List.set_cons_zero]
      by_cases hpk : p = k
      · subst hpk
        simp [getD_cons]
      · have hb : ((k : String) == p) = false := beq_eq_false_iff_ne.mpr (Ne.symm hpk)
        rw [getD_cons, getD_cons]
        simp only [hb, Bool.false_eq_true, if_false, if_neg hpk]
    | succ n =>
      have h2 : r[n]? = some (k, w) := by simpa using h
      have hkz : z.1 ≠ k := by
        intro he
        apply hnd.1
        rw [he]
        exact List.mem_map_of_mem Prod.fst (List.getElem?_mem h2)
      rw [List.set_cons_succ]
      rw [getD_cons, getD_cons]
      by_cases hpz : (z.1 == p) = true
      · have hpz2 : z.1 = p := by simpa using hpz
        rw [if_pos hpz, if_pos hpz]
        rw [if_neg (by rw [← hpz2]; exact hkz)]
      · rw [if_neg hpz, if_neg hpz]
        exact ih n k w v p (by simpa [NoDupKeys, keys] using hnd.2) h2

theorem getD_eraseIdx :
    ∀ (l : List (String × ℚ)) (i : ℕ) (k : String) (w : ℚ) (p : String),
      NoDupKeys l → l[i]? = some (k, w) →
      getD (l.eraseIdx i) p = if p = k then 0 else getD l p := by
  intro l
  induction l with
  | nil => intro i k w p _ h; simp at h
  | cons z r ih =>
    intro i k w p hnd h
    simp only [NoDupKeys, keys, List.map_cons, List.nodup_cons] at hnd
    cases i with
    | zero =>
      simp only [List.getElem?_cons_zero, Option.some.injEq] at h
      subst h
      rw [List.eraseIdx_cons_zero]
      by_cases hpk : p = k
      · subst hpk
        rw [if_pos rfl]
        apply getD_eq_zero_of_not_mem
        exact hnd.1
      · rw [if_neg hpk, getD_cons]
        have hb : ((k : String) == p) = false := beq_eq_false_iff_ne.mpr (Ne.symm hpk)
        rw [hb]
        simp
    | succ n =>
      have h2 : r[n]? = some (k, w) := by simpa using h
      have hkz : z.1 ≠ k := by
        intro he
        apply hnd.1
        rw [he]
        exact List.mem_map_of_mem Prod.fst (List.getElem?_mem h2)
      rw [List.eraseIdx_cons_succ]
      rw [getD_cons, getD_cons]
      by_cases hpz : (z.1 == p) = true
      · have hpz2 : z.1 = p := by simpa using hpz
        rw [if_pos hpz, if_pos hpz]
        rw [if_neg (by rw [← hpz2]; exact hkz)]
      · rw [if_neg hpz, if_neg hpz]
        exact ih n k w p (by simpa [NoDupKeys, keys] using hnd.2) h2

theorem NoDupKeys_set (l : List (String × ℚ)) (i : ℕ) (k : String) (w v : ℚ)
    (h : l[i]? = some (k, w)) (hnd : NoDupKeys l) : NoDupKeys (l.set i (k, v)) := by
  unfold NoDupKeys
  rw [keys_set_key l i k w v h]
  exact hnd

theorem getD_moveDebtors (ds : List (String × ℚ)) (i : ℕ) (dn : String) (da a : ℚ)
    (p : String) (hnd : NoDupKeys ds) (hd : ds[i]? = some (dn, da))
    (hc : IsCents (da + a)) :
    getD (moveDebtors ds i dn da a) p = if p = dn then da + a else getD ds p := by
  have hi : i < ds.length := (List.getElem?_eq_some.mp hd).1
  have hset : (ds.set i (dn, da + a))[i]? = some (dn, da + a) :=
    List.getElem?_set_self (by simpa using hi)
  have hnds : NoDupKeys (ds.set i (dn, da + a)) := NoDupKeys_set ds i dn da (da + a) hd hnd
  rw [moveDebtors]
  split
  · rename_i hlt
    have h0 : da + a = 0 := hc.eq_zero hlt
    rw [getD_eraseIdx _ i dn (da + a) p hnds hset]
    by_cases hpd : p = dn
    · rw [if_pos hpd, if_pos hpd, h0]
    · rw [if_neg hpd, if_neg hpd]
      rw [getD_set ds i dn da (da + a) p hnd hd, if_neg hpd]
  · exact getD_set ds i dn da (da + a) p hnd hd

theorem getD_moveCreditors (cs : List (String × ℚ)) (j : ℕ) (cn : String) (ca a : ℚ)
    (p : String) (hnd : NoDupKeys cs) (hc : cs[j]? = some (cn, ca))
    (hcent : IsCents (ca - a)) :
    getD (moveCreditors cs j cn ca a) p = if p = cn then ca - a else getD cs p := by
  have hj : j < cs.length := (List.getElem?_eq_some.mp hc).1
  have hset : (cs.set j (cn, ca - a))[j]? = some (cn, ca - a) :=
    List.getElem?_set_self (by simpa using hj)
  have hnds : NoDupKeys (cs.set j (cn, ca - a)) := NoDupKeys_set cs j cn ca (ca - a) hc hnd
  rw [moveCreditors]
  split
  · rename_i hlt
    have h0 : ca - a = 0 := hcent.eq_zero hlt
    rw [getD_eraseIdx _ j cn (ca - a) p hnds hset]
    by_cases hpc : p = cn
    · rw [if_pos hpc, if_pos hpc, h0]
    · rw [if_neg hpc, if_neg hpc]
      rw [getD_set cs j cn ca (ca - a) p hnd hc, if_neg hpc]
  · exact getD_set cs j cn ca (ca - a) p hnd hc

/-! ## Sums and memberships of the moved lists -/

theorem sumVals_set :
    ∀ (l : List (String × ℚ)) (i : ℕ) (x v : String × ℚ),
      l[i]? = some x → sumVals (l.set i v) = sumVals l - x.2 + v.2 := by
  intro l
  induction l with
  | nil => intro i x v h; simp at h
  | cons z r ih =>
    intro i x v h
    cases i with
    | zero =>
      simp only [List.getElem?_cons_zero, Option.some.injEq] at h
      subst h
      rw [List.set_cons_zero]
      simp only [sumVals, List.map_cons, List.sum_cons]
      ring
    | succ n =>
      have h2 : r[n]? = some x := by simpa using h
      rw [List.set_cons_succ]
      simp only [sumVals, List.map_cons, List.sum_cons]
      have := ih n x v h2
      simp only [sumVals] at this
      rw [this]
      ring

theorem sumVals_eraseIdx :
    ∀ (l : List (String × ℚ)) (i : ℕ) (x : String × ℚ),
      l[i]? = some x → sumVals (l.eraseIdx i) = sumVals l - x.2 := by
  intro l
  induction l with
  | nil => intro i x h; simp at h
  | cons z r ih =>
    intro i x h
    cases i with
    | zero =>
      simp only [List.getElem?_cons_zero, Option.some.injEq] at h
      subst h
      rw [List.eraseIdx_cons_zero]
      simp only [sumVals, List.map_cons, List.sum_cons]
      ring
    | succ n =>
      have h2 : r[n]? = some x := by simpa using h
      rw [List.eraseIdx_cons_succ]
      simp only [sumVals, List.map_cons, List.sum_cons]
      have := ih n x h2
      simp only [sumVals] at this
      rw [this]
      ring

theorem sumVals_moveDebtors (ds : List (String × ℚ)) (i : ℕ) (dn : String) (da a : ℚ)
    (hd : ds[i]? = some (dn, da)) (hc : IsCents (da + a)) :
    sumVals (moveDebtors ds i dn da a) = sumVals ds + a := by
  have hi : i < ds.length := (List.getElem?_eq_some.mp hd).1
  have hset : (ds.set i (dn, da + a))[i]? = some (dn, da + a) :=
    List.getElem?_set_self (by simpa using hi)
  rw [moveDebtors]
  split
  · rename_i hlt
    have h0 : da + a = 0 := hc.eq_zero hlt
    rw [sumVals_eraseIdx _ i (dn, da + a) hset, sumVals_set ds i (dn, da) (dn, da + a) hd]
    simp only
    linarith
  · rw [sumVals_set ds i (dn, da) (dn, da + a) hd]
    simp only
    ring

theorem sumVals_moveCreditors (cs : List (String × ℚ)) (j : ℕ) (cn : String) (ca a : ℚ)
    (hc : cs[j]? = some (cn, ca)) (hcent : IsCents (ca - a)) :
    sumVals (moveCreditors cs j cn ca a) = sumVals cs - a := by
  have hj : j < cs.length := (List.getElem?_eq_some.mp hc).1
  have hset : (cs.set j (cn, ca - a))[j]? = some (cn, ca - a) :=
    List.getElem?_set_self (by simpa using hj)
  rw [moveCreditors]
  split
  · rename_i hlt
    have h0 : ca - a = 0 := hcent.eq_zero hlt
    rw [sumVals_eraseIdx _ j (cn, ca - a) hset, sumVals_set cs j (cn, ca) (cn, ca - a) hc]
    simp only
    linarith
  · rw [sumVals_set cs j (cn, ca) (cn, ca - a) hc]
    simp only
    ring

theorem mem_moveDebtors {ds : List (String × ℚ)} {i : ℕ} {dn : String} {da a : ℚ}
    {x : String × ℚ} (hx : x ∈ moveDebtors ds i dn da a) :
    x ∈ ds ∨ x = (dn, da + a) := by
  rw [moveDebtors] at hx
  split at hx
  · exact List.mem_or_eq_of_mem_set ((List.eraseIdx_sublist _ i).subset hx)
  · exact List.mem_or_eq_of_mem_set hx

theorem mem_moveCreditors {cs : List (String × ℚ)} {j : ℕ} {cn : String} {ca a : ℚ}
    {x : String × ℚ} (hx : x ∈ moveCreditors cs j cn ca a) :
    x ∈ cs ∨ x = (cn, ca - a) := by
  rw [moveCreditors] at hx
  split at hx
  · exact List.mem_or_eq_of_mem_set ((List.eraseIdx_sublist _ j).subset hx)
  · exact List.mem_or_eq_of_mem_set hx

/-! ## Net effect of a transaction list -/

theorem txnDelta_nil (p : String) : txnDelta [] p = 0 := rfl

theorem txnDelta_cons (τ : SettleTxn) (T : List SettleTxn) (p : String) :
    txnDelta (τ :: T) p
      = ((if p = τ.debtor then τ.amount else 0) - (if p = τ.creditor then τ.amount else 0))
        + txnDelta T p := by
  simp [txnDelta]

theorem applyTxns_eq_delta :
    ∀ (ts : List SettleTxn) (balances : List (String × ℚ)),
      applyTxns balances ts
        = balances.map (fun x => (x.1, x.2 + txnDelta ts x.1)) := by
  intro ts
  induction ts with
  | nil =>
    intro b
    show b = _
    have : ∀ x ∈ b, (fun x : String × ℚ => (x.1, x.2 + txnDelta [] x.1)) x = id x := by
      intro x _
      simp [txnDelta_nil]
    rw [List.map_congr_left this, List.map_id]
  | cons τ ts ih =>
    intro b
    show applyTxns (applyTxn b τ) ts = _
    rw [ih, applyTxn, List.map_map]
    apply List.map_congr_left
    intro x _
    simp only [Function.comp, txnDelta_cons, Prod.mk.injEq, true_and]
    ring

theorem getD_append_add (l1 l2 : List (String × ℚ)) (p : String)
    (hdisj : (keys l1).Disjoint (keys l2)) :
    getD (l1 ++ l2) p = getD l1 p + getD l2 p := by
  rw [getD_eq, getD_eq, getD_eq, List.find?_append]
  cases hf : l1.find? (fun x => x.1 == p) with
  | some x =>
    have hx1 : x ∈ l1 := List.mem_of_find?_eq_some hf
    have hxp : x.1 = p := by simpa using List.find?_some hf
    have hp2 : l2.find? (fun x => x.1 == p) = none := by
      rw [List.find?_eq_none]
      intro y hy hby
      have hyp : y.1 = p := by simpa using hby
      exact hdisj (hxp ▸ List.mem_map_of_mem Prod.fst hx1)
        (hyp ▸ List.mem_map_of_mem Prod.fst hy)
    rw [hp2]
    simp [Option.or]
  | none =>
    simp [Option.or]

theorem all_zero_of_nonneg :
    ∀ (l : List (String × ℚ)), (∀ x ∈ l, 0 ≤ x.2) → sumVals l = 0 → ∀ x ∈ l, x.2 = 0 := by
  intro l
  induction l with
  | nil => intro _ _ x hx; simp at hx
  | cons z r ih =>
    intro h hs x hx
    have hz : 0 ≤ z.2 := h z (List.mem_cons_self _ _)
    have hr : 0 ≤ sumVals r := List.sum_nonneg (by
      intro q hq
      obtain ⟨y, hy, hyq⟩ := List.mem_map.mp hq
      rw [← hyq]
      exact h y (List.mem_cons_of_mem _ hy))
    have hsum : z.2 + sumVals r = 0 := by simpa [sumVals] using hs
    rcases List.mem_cons.mp hx with hxz | hxr
    · rw [hxz]; linarith
    · exact ih (fun y hy => h y (List.mem_cons_of_mem _ hy)) (by linarith) x hxr

theorem sumVals_map_neg (l : List (String × ℚ)) :
    sumVals (l.map (fun x => (x.1, -x.2))) = -sumVals l := by
  induction l with
  | nil => simp [sumVals]
  | cons z r ih =>
    simp only [sumVals, List.map_cons, List.sum_cons] at ih ⊢
    rw [ih]
    ring

theorem all_zero_of_nonpos :
    ∀ (l : List (String × ℚ)), (∀ x ∈ l, x.2 ≤ 0) → sumVals l = 0 → ∀ x ∈ l, x.2 = 0 := by
  intro l
  induction l with
  | nil => intro _ _ x hx; simp at hx
  | cons z r ih =>
    intro h hs x hx
    have hz : z.2 ≤ 0 := h z (List.mem_cons_self _ _)
    have hr : sumVals r ≤ 0 := by
      have : 0 ≤ sumVals (r.map (fun x => (x.1, -x.2))) := List.sum_nonneg (by
        intro q hq
        obtain ⟨y, hy, hyq⟩ := List.mem_map.mp hq
        obtain ⟨w, hw, hwy⟩ := List.mem_map.mp hy
        rw [← hyq, ← hwy]
        simp only
        have := h w (List.mem_cons_of_mem _ hw)
        linarith)
      rw [sumVals_map_neg] at this
      linarith
    have hsum : z.2 + sumVals r = 0 := by simpa [sumVals] using hs
    rcases List.mem_cons.mp hx with hxz | hxr
    · rw [hxz]; linarith
    · exact ih (fun y hy => h y (List.mem_cons_of_mem _ hy)) (by linarith) x hxr

/-- The settle invariant of a schedule: over a whole-cent, zero-sum,
duplicate-free state, the net effect of any schedule on every person is the
exact negation of that person's working balance. -/
theorem settlePath_delta :
    ∀ (ds cs : List (String × ℚ)) (T : List SettleTxn),
      SettlePath ds cs T →
      (∀ x ∈ ds, IsCents x.2 ∧ x.2 ≤ 0) →
      (∀ x ∈ cs, IsCents x.2 ∧ 0 ≤ x.2) →
      sumVals ds + sumVals cs = 0 →
      NoDupKeys (ds ++ cs) →
      ∀ p, getD ds p + getD cs p + txnDelta T p = 0 := by
  intro ds cs T hp
  induction hp with
  | terminal ds cs hterm =>
    intro hwd hwc hsum _ p
    rw [txnDelta_nil]
    rcases hterm with h1 | h1
    · subst h1
      have hzero : ∀ x ∈ cs, x.2 = 0 := all_zero_of_nonneg cs (fun x hx => (hwc x hx).2)
        (by simpa [sumVals] using hsum)
      have : getD cs p = 0 := getD_cases cs p (fun q => q = 0) rfl hzero
      simp [getD_nil, this]
    · subst h1
      have hzero : ∀ x ∈ ds, x.2 = 0 := all_zero_of_nonpos ds (fun x hx => (hwd x hx).2)
        (by simpa [sumVals] using hsum)
      have : getD ds p = 0 := getD_cases ds p (fun q => q = 0) rfl hzero
      simp [getD_nil, this]
  | step ds cs i j dn cn da ca T2 hd hc hne hrest ih =>
    intro hwd hwc hsum hnd
    have hmemd : (dn, da) ∈ ds := List.getElem?_mem hd
    have hmemc : (cn, ca) ∈ cs := List.getElem?_mem hc
    have hda := hwd (dn, da) hmemd
    have hca := hwc (cn, ca) hmemc
    have hICa : IsCents (settleAmount da ca) := isCents_settleAmount hda.1 hca.1
    have hICda : IsCents (da + settleAmount da ca) := hda.1.add hICa
    have hICca : IsCents (ca - settleAmount da ca) := hca.1.sub hICa
    have hle1 : da + settleAmount da ca ≤ 0 := by
      have := min_le_left (-da) ca
      rw [settleAmount]
      linarith
    have hle2 : 0 ≤ ca - settleAmount da ca := by
      have := min_le_right (-da) ca
      rw [settleAmount]
      linarith
    have hndd : NoDupKeys ds := by
      unfold NoDupKeys at hnd ⊢
      rw [keys_append, List.nodup_append] at hnd
      exact hnd.1
    have hndc : NoDupKeys cs := by
      unfold NoDupKeys at hnd ⊢
      rw [keys_append, List.nodup_append] at hnd
      exact hnd.2.1
    have hwd2 : ∀ x ∈ moveDebtors ds i dn da (settleAmount da ca),
        IsCents x.2 ∧ x.2 ≤ 0 := by
      intro x hx
      rcases mem_moveDebtors hx with hh | hh
      · exact hwd x hh
      · rw [hh]
        exact ⟨hICda, hle1⟩
    have hwc2 : ∀ x ∈ moveCreditors cs j cn ca (settleAmount da ca),
        IsCents x.2 ∧ 0 ≤ x.2 := by
      intro x hx
      rcases mem_moveCreditors hx with hh | hh
      · exact hwc x hh
      · rw [hh]
        exact ⟨hICca, hle2⟩
    have hsum2 : sumVals (moveDebtors ds i dn da (settleAmount da ca))
        + sumVals (moveCreditors cs j cn ca (settleAmount da ca)) = 0 := by
      rw [sumVals_moveDebtors ds i dn da (settleAmount da ca) hd hICda,
        sumVals_moveCreditors cs j cn ca (settleAmount da ca) hc hICca]
      linarith
    have hnd2 := NoDupKeys_move ds cs i j dn cn da ca (settleAmount da ca) hd hc hnd
    have IH := ih hwd2 hwc2 hsum2 hnd2
    intro p
    have hgd := getD_moveDebtors ds i dn da (settleAmount da ca) p hndd hd hICda
    have hgc := getD_moveCreditors cs j cn ca (settleAmount da ca) p hndc hc hICca
    have hgdsdn : getD ds dn = da := getD_of_getElem? ds i dn da hndd hd
    have hgcscn : getD cs cn = ca := getD_of_getElem? cs j cn ca hndc hc
    have hIHp := IH p
    rw [hgd, hgc] at hIHp
    rw [txnDelta_cons]
    simp only
    by_cases hpd : p = dn
    · subst hpd
      rw [if_pos rfl] at hIHp
      rw [if_neg hne] at hIHp
      rw [if_pos rfl, if_neg hne]
      rw [hgdsdn]
      linarith
    · by_cases hpc : p = cn
      · subst hpc
        rw [if_neg hpd, if_pos rfl] at hIHp
        rw [if_neg hpd, if_pos rfl]
        rw [hgcscn]
        linarith
      · rw [if_neg hpd, if_neg hpc] at hIHp
        rw [if_neg hpd, if_neg hpc]
        linarith

theorem getD_of_mem :
    ∀ (l : List (String × ℚ)) (x : String × ℚ),
      NoDupKeys l → x ∈ l → getD l x.1 = x.2 := by
  intro l
  induction l with
  | nil => intro x _ hx; simp at hx
  | cons z r ih =>
    intro x hnd hx
    simp only [NoDupKeys, keys, List.map_cons, List.nodup_cons] at hnd
    rcases List.mem_cons.mp hx with hxz | hxr
    · subst hxz
      simp [getD_cons]
    · have hzx : z.1 ≠ x.1 := by
        intro he
        apply hnd.1
        rw [he]
        exact List.mem_map_of_mem Prod.fst hxr
      rw [getD_cons]
      have hb : (z.1 == x.1) = false := beq_eq_false_iff_ne.mpr hzx
      rw [hb]
      simp only [Bool.false_eq_true, if_false]
      exact ih x (by simpa [NoDupKeys, keys] using hnd.2) hxr

theorem snapBalances_eq_self (b : List (String × ℚ)) (h : ∀ x ∈ b, IsCents x.2) :
    snapBalances b = b := by
  unfold snapBalances
  have hcong : ∀ x ∈ b, (if |x.2| < eps then (x.1, (0 : ℚ)) else x) = id x := by
    intro x hx
    split
    · rename_i hlt
      have h0 := (h x hx).eq_zero hlt
      exact Prod.ext rfl h0.symm
    · rfl
  rw [List.map_congr_left hcong, List.map_id]

theorem sumVals_neg_add_pos (l : List (String × ℚ)) :
    sumVals (l.filter (fun x => decide (x.2 < 0)))
      + sumVals (l.filter (fun x => decide (0 < x.2))) = sumVals l := by
  induction l with
  | nil => simp [sumVals]
  | cons z r ih =>
    rcases lt_trichotomy z.2 0 with hlt | heq | hgt
    · rw [List.filter_cons_of_pos (by simpa using hlt),
        List.filter_cons_of_neg (by simp; linarith)]
      simp only [sumVals, List.map_cons, List.sum_cons] at ih ⊢
      linarith
    · rw [List.filter_cons_of_neg (by simp [heq]),
        List.filter_cons_of_neg (by simp [heq])]
      simp only [sumVals, List.map_cons, List.sum_cons] at ih ⊢
      rw [heq]
      linarith
    · rw [List.filter_cons_of_neg (by simp; linarith),
        List.filter_cons_of_pos (by simpa using hgt)]
      simp only [sumVals, List.map_cons, List.sum_cons] at ih ⊢
      linarith

/-! ## Claim C1: applying the returned transactions settles the balances -/

/-- C1 (amended): for every balance map handed to the optimizer whose keys
are distinct (as for a Python dict), whose balances are whole cents, and
whose balances sum to zero, applying the returned settlement transactions in
order to the input balances leaves every person's balance within 0.01 of
zero.  The claim as stated over all balance maps is refuted by
`claim_C1_counterexample` (even zero-sum maps fail without the whole-cent
hypothesis). -/
theorem claim_C1_settles (cal : GroupTransactionCalculator) (owed : List (String × ℚ))
    (hnd : NoDupKeys cal.personPayments)
    (hcents : ∀ x ∈ balancesOf cal owed, IsCents x.2)
    (hsum : sumVals (balancesOf cal owed) = 0) :
    AllSettled (applyTxns (balancesOf cal owed)
      (optimizeTransactions cal owed).settlementTransactions) := by
  have hsnap : snapBalances (balancesOf cal owed) = balancesOf cal owed :=
    snapBalances_eq_self _ hcents
  have hds : debtorsOf cal owed
      = (balancesOf cal owed).filter (fun x => decide (x.2 < 0)) := by
    unfold debtorsOf
    rw [hsnap]
  have hcs : creditorsOf cal owed
      = (balancesOf cal owed).filter (fun x => decide (0 < x.2)) := by
    unfold creditorsOf
    rw [hsnap]
  have hndb : NoDupKeys (balancesOf cal owed) := by
    unfold NoDupKeys
    rw [keys_balancesOf]
    exact hnd
  have hnddc := NoDupKeys_debtors_creditors cal owed hnd
  have hndds : NoDupKeys (debtorsOf cal owed) := by
    unfold NoDupKeys at hnddc ⊢
    rw [keys_append, List.nodup_append] at hnddc
    exact hnddc.1
  have hndcs : NoDupKeys (creditorsOf cal owed) := by
    unfold NoDupKeys at hnddc ⊢
    rw [keys_append, List.nodup_append] at hnddc
    exact hnddc.2.1
  have hdisj : (keys (debtorsOf cal owed)).Disjoint (keys (creditorsOf cal owed)) := by
    have h2 := hnddc
    unfold NoDupKeys at h2
    rw [keys_append, List.nodup_append] at h2
    exact h2.2.2
  rw [optimizeTransactions_eq_plain, optimizePlain]
  by_cases hterm : debtorsOf cal owed = [] ∨ creditorsOf cal owed = []
  · rw [if_pos hterm]
    show AllSettled (applyTxns (balancesOf cal owed) [])
    show AllSettled (balancesOf cal owed)
    intro x hx
    rcases hterm with h1 | h1
    · rw [hds] at h1
      have hpos : ∀ y ∈ balancesOf cal owed, 0 ≤ y.2 := by
        intro y hy
        have := List.filter_eq_nil_iff.mp h1 y hy
        simp at this
        exact this
      have h0 := all_zero_of_nonneg _ hpos hsum x hx
      rw [h0]
      simpa using eps_pos
    · rw [hcs] at h1
      have hneg : ∀ y ∈ balancesOf cal owed, y.2 ≤ 0 := by
        intro y hy
        have := List.filter_eq_nil_iff.mp h1 y hy
        simp at this
        exact this
      have h0 := all_zero_of_nonpos _ hneg hsum x hx
      rw [h0]
      simpa using eps_pos
  · rw [if_neg hterm]
    obtain ⟨T, hval, hpath⟩ := plainSearch_achieves
      ((debtorsOf cal owed).length + (creditorsOf cal owed).length)
      (debtorsOf cal owed) (creditorsOf cal owed) [] (le_refl _) hnddc
    show AllSettled (applyTxns (balancesOf cal owed) (plainSearch _ _ _ []).2)
    rw [hval]
    simp only [List.nil_append]
    have hwd : ∀ x ∈ debtorsOf cal owed, IsCents x.2 ∧ x.2 ≤ 0 := by
      intro x hx
      rw [hds] at hx
      obtain ⟨hxb, hxp⟩ := List.mem_filter.mp hx
      refine ⟨hcents x hxb, ?_⟩
      have : x.2 < 0 := by simpa using hxp
      linarith
    have hwc : ∀ x ∈ creditorsOf cal owed, IsCents x.2 ∧ 0 ≤ x.2 := by
      intro x hx
      rw [hcs] at hx
      obtain ⟨hxb, hxp⟩ := List.mem_filter.mp hx
      refine ⟨hcents x hxb, ?_⟩
      have : 0 < x.2 := by simpa using hxp
      linarith
    have hsum2 : sumVals (debtorsOf cal owed) + sumVals (creditorsOf cal owed) = 0 := by
      rw [hds, hcs, sumVals_neg_add_pos]
      exact hsum
    have hV := settlePath_delta (debtorsOf cal owed) (creditorsOf cal owed) T hpath
      hwd hwc hsum2 hnddc
    rw [applyTxns_eq_delta]
    intro y hy
    obtain ⟨x, hxb, hxy⟩ := List.mem_map.mp hy
    rw [← hxy]
    simp only
    have hVx := hV x.1
    have hkey : getD (debtorsOf cal owed) x.1 + getD (creditorsOf cal owed) x.1 = x.2 := by
      rcases lt_trichotomy x.2 0 with hlt | heq | hgt
      · have hxds : x ∈ debtorsOf cal owed := by
          rw [hds]
          exact List.mem_filter.mpr ⟨hxb, by simpa using hlt⟩
        have h1 : getD (debtorsOf cal owed) x.1 = x.2 := getD_of_mem _ x hndds hxds
        have h2 : getD (creditorsOf cal owed) x.1 = 0 := by
          apply getD_eq_zero_of_not_mem
          intro hmem
          exact hdisj (List.mem_map_of_mem Prod.fst hxds) hmem
        rw [h1, h2]
        ring
      · have h1 : getD (debtorsOf cal owed) x.1 = 0 := by
          apply getD_eq_zero_of_not_mem
          intro hmem
          obtain ⟨y2, hy2, hy2k⟩ := List.mem_map.mp hmem
          rw [hds] at hy2
          obtain ⟨hy2b, hy2p⟩ := List.mem_filter.mp hy2
          have : y2 = x := keys_nodup_eq hndb hy2b hxb hy2k
          rw [this] at hy2p
          simp [heq] at hy2p
        have h2 : getD (creditorsOf cal owed) x.1 = 0 := by
          apply getD_eq_zero_of_not_mem
          intro hmem
          obtain ⟨y2, hy2, hy2k⟩ := List.mem_map.mp hmem
          rw [hcs] at hy2
          obtain ⟨hy2b, hy2p⟩ := List.mem_filter.mp hy2
          have : y2 = x := keys_nodup_eq hndb hy2b hxb hy2k
          rw [this] at hy2p
          simp [heq] at hy2p
        rw [h1, h2, heq]
        ring
      · have hxcs : x ∈ creditorsOf cal owed := by
          rw [hcs]
          exact List.mem_filter.mpr ⟨hxb, by simpa using hgt⟩
        have h1 : getD (creditorsOf cal owed) x.1 = x.2 := getD_of_mem _ x hndcs hxcs
        have h2 : getD (debtorsOf cal owed) x.1 = 0 := by
          apply getD_eq_zero_of_not_mem
          intro hmem
          exact hdisj hmem (List.mem_map_of_mem Prod.fst hxcs)
        rw [h1, h2]
        ring
    rw [hkey] at hVx
    have : x.2 + txnDelta T x.1 = 0 := hVx
    rw [this]
    simpa using eps_pos

/-- Witness for C1 (amended) at the three-person cycle of the spec. -/
theorem claim_C1_witness :
    AllSettled (applyTxns (balancesOf ⟨[("A", -5), ("B", -5), ("C", 10)], [], [], []⟩ [])
      (optimizeTransactions ⟨[("A", -5), ("B", -5), ("C", 10)], [], [], []⟩
        []).settlementTransactions) :=
  claim_C1_settles ⟨[("A", -5), ("B", -5), ("C", 10)], [], [], []⟩ []
    (by decide) (by with_unfolding_all decide) (by with_unfolding_all decide)

/-- C1 counterexample: a zero-sum balance map that is not whole cents.
On A: -0.025, B: -0.025, C: +0.017, D: +0.017, E: +0.016 the optimizer
returns [A pays C 0.017, B pays D 0.017]; applying them leaves E at +0.016,
not within 0.01 of zero — the claim fails as stated, even with the balances
summing to zero. -/
theorem claim_C1_counterexample :
    sumVals (balancesOf
      ⟨[("A", -25/1000), ("B", -25/1000), ("C", 17/1000), ("D", 17/1000), ("E", 16/1000)],
        [], [], []⟩ []) = 0 ∧
    ¬ AllSettled (applyTxns
      (balancesOf
        ⟨[("A", -25/1000), ("B", -25/1000), ("C", 17/1000), ("D", 17/1000), ("E", 16/1000)],
          [], [], []⟩ [])
      (optimizeTransactions
        ⟨[("A", -25/1000), ("B", -25/1000), ("C", 17/1000), ("D", 17/1000), ("E", 16/1000)],
          [], [], []⟩ []).settlementTransactions) :=
  ⟨by with_unfolding_all decide, by with_unfolding_all decide⟩

/-! ## Claim C4: ledger-wide balance accounting -/

theorem keys_addPerson_subset (c : GroupTransactionCalculator) (n p : String)
    (h : p ∈ keys c.personPayments) : p ∈ keys (addPerson c n).personPayments := by
  rw [addPerson]
  split
  · exact h
  · show p ∈ keys (c.personPayments ++ [(n, 0)])
    rw [keys_append]
    exact List.mem_append_left _ h

theorem keys_foldl_addPerson_subset (l : List String) (c : GroupTransactionCalculator)
    (p : String) (h : p ∈ keys c.personPayments) :
    p ∈ keys (l.foldl addPerson c).personPayments := by
  induction l generalizing c with
  | nil => exact h
  | cons x r ih => exact ih (addPerson c x) (keys_addPerson_subset c x p h)

theorem mem_keys_addPerson_self (c : GroupTransactionCalculator) (n : String) :
    n ∈ keys (addPerson c n).personPayments := by
  rw [← find?_isSome_iff_mem_keys]
  exact find?_isSome_addPerson_self c n

theorem mem_keys_foldl_addPerson (l : List String) (c : GroupTransactionCalculator)
    (p : String) (h : p ∈ l) : p ∈ keys (l.foldl addPerson c).personPayments := by
  induction l generalizing c with
  | nil => simp at h
  | cons x r ih =>
    rcases List.mem_cons.mp h with hh | hh
    · subst hh
      exact keys_foldl_addPerson_subset r (addPerson c p) p (mem_keys_addPerson_self c p)
    · exact ih (addPerson c x) hh

theorem NoDupKeys_addPerson (c : GroupTransactionCalculator) (n : String)
    (h : NoDupKeys c.personPayments) : NoDupKeys (addPerson c n).personPayments := by
  rw [addPerson]
  split
  · exact h
  · rename_i hfind
    show NoDupKeys (c.personPayments ++ [(n, 0)])
    unfold NoDupKeys at h ⊢
    rw [keys_append, List.nodup_append]
    refine ⟨h, by simp [keys], ?_⟩
    intro a ha hb
    have hn : a = n := by
      simpa [keys] using hb
    subst hn
    apply hfind
    rw [find?_isSome_iff_mem_keys]
    exact ha

theorem NoDupKeys_foldl_addPerson (l : List String) (c : GroupTransactionCalculator)
    (h : NoDupKeys c.personPayments) : NoDupKeys (l.foldl addPerson c).personPayments := by
  induction l generalizing c with
  | nil => exact h
  | cons x r ih => exact ih (addPerson c x) (NoDupKeys_addPerson c x h)

theorem NoDupKeys_bump (l : List (String × ℚ)) (p : String) (a : ℚ)
    (h : NoDupKeys l) : NoDupKeys (bump l p a) := by
  unfold NoDupKeys at h ⊢
  rw [keys_bump]
  exact h

theorem sumVals_addPerson (c : GroupTransactionCalculator) (n : String) :
    sumVals (addPerson c n).personPayments = sumVals c.personPayments := by
  rw [addPerson]
  split
  · rfl
  · show sumVals (c.personPayments ++ [(n, 0)]) = _
    simp [sumVals]

theorem sumVals_foldl_addPerson (l : List String) (c : GroupTransactionCalculator) :
    sumVals (l.foldl addPerson c).personPayments = sumVals c.personPayments := by
  induction l generalizing c with
  | nil => rfl
  | cons x r ih => rw [List.foldl_cons, ih (addPerson c x), sumVals_addPerson]

theorem sumVals_bump (l : List (String × ℚ)) (p : String) (a : ℚ)
    (h : p ∈ keys l) : sumVals (bump l p a) = sumVals l + a := by
  induction l with
  | nil => simp [keys] at h
  | cons z r ih =>
    rw [bump_cons]
    cases hx : (z.1 == p) with
    | true =>
      simp only [if_true]
      simp only [sumVals, List.map_cons, List.sum_cons]
      ring
    | false =>
      simp only [Bool.false_eq_true, if_false]
      have hzp : z.1 ≠ p := by simpa using hx
      have h2 : p ∈ keys r := by
        have hck : keys (z :: r) = z.1 :: keys r := by simp [keys]
        rw [hck] at h
        rcases List.mem_cons.mp h with hh | hh
        · exact absurd hh.symm hzp
        · exact hh
      simp only [sumVals, List.map_cons, List.sum_cons]
      have := ih h2
      simp only [sumVals] at this
      rw [this]
      ring

theorem addItem_ok_fields (c c2 : GroupTransactionCalculator) (buyer : String)
    (cost : ℚ) (ppl : List (String × ℤ)) (ic : Bool)
    (h : addItem c buyer cost ppl ic = Except.ok c2) :
    c2.personPayments = ((keys ppl).foldl addPerson
      { addPerson c buyer with
        personPayments := bump (addPerson c buyer).personPayments buyer cost }).personPayments
    ∧ c2.itemRecords = c.itemRecords ++ [(buyer, cost, ppl, ic)]
    ∧ (ic = true → ppl ≠ []) := by
  rw [addItem] at h
  cases ic with
  | true =>
    simp only [if_true] at h
    by_cases hlen : ppl.length = 0
    · rw [if_pos hlen] at h
      exact absurd h (by simp)
    · rw [if_neg hlen] at h
      simp only [Except.ok.injEq] at h
      subst h
      refine ⟨rfl, ?_, fun _ => by simpa using hlen⟩
      show ((keys ppl).foldl addPerson _).itemRecords ++ _ = _
      rw [foldl_addPerson_itemRecords]
      show (addPerson c buyer).itemRecords ++ _ = _
      rw [addPerson_itemRecords]
  | false =>
    simp only [Bool.false_eq_true, if_false] at h
    by_cases hq : (ppl.map Prod.snd).sum = 0
    · rw [if_pos hq] at h
      simp only [Except.ok.injEq] at h
      subst h
      refine ⟨rfl, ?_, by simp⟩
      show ((keys ppl).foldl addPerson _).itemRecords ++ _ = _
      rw [foldl_addPerson_itemRecords]
      show (addPerson c buyer).itemRecords ++ _ = _
      rw [addPerson_itemRecords]
    · rw [if_neg hq] at h
      simp only [Except.ok.injEq] at h
      subst h
      refine ⟨rfl, ?_, by simp⟩
      show ((keys ppl).foldl addPerson _).itemRecords ++ _ = _
      rw [foldl_addPerson_itemRecords]
      show (addPerson c buyer).itemRecords ++ _ = _
      rw [addPerson_itemRecords]

theorem built_invariants (c : GroupTransactionCalculator) (h : Built c) :
    NoDupKeys c.personPayments ∧
    (∀ r ∈ c.itemRecords, r.2.2.2 = true → r.2.2.1 ≠ []) ∧
    (∀ r ∈ c.itemRecords, ∀ x ∈ r.2.2.1, x.1 ∈ keys c.personPayments) ∧
    sumVals c.personPayments = (c.itemRecords.map (fun r => r.2.1)).sum := by
  induction h with
  | start =>
    refine ⟨by simp [NoDupKeys, keys, initCalc], ?_, ?_, ?_⟩ <;> simp [initCalc, sumVals]
  | person c n _ ih =>
    obtain ⟨h1, h2, h3, h4⟩ := ih
    refine ⟨NoDupKeys_addPerson c n h1, ?_, ?_, ?_⟩
    · rw [addPerson_itemRecords]
      exact h2
    · rw [addPerson_itemRecords]
      intro r hr x hx
      exact keys_addPerson_subset c n x.1 (h3 r hr x hx)
    · rw [sumVals_addPerson, addPerson_itemRecords]
      exact h4
  | item c c2 buyer cost ppl ic _ hcost hok ih =>
    obtain ⟨h1, h2, h3, h4⟩ := ih
    obtain ⟨hpay, hrec, hcommon⟩ := addItem_ok_fields c c2 buyer cost ppl ic hok
    have hbuyer : buyer ∈ keys (addPerson c buyer).personPayments :=
      mem_keys_addPerson_self c buyer
    have hnd1 : NoDupKeys (bump (addPerson c buyer).personPayments buyer cost) :=
      NoDupKeys_bump _ buyer cost (NoDupKeys_addPerson c buyer h1)
    refine ⟨?_, ?_, ?_, ?_⟩
    · rw [hpay]
      exact NoDupKeys_foldl_addPerson (keys ppl)
        { addPerson c buyer with
          personPayments := bump (addPerson c buyer).personPayments buyer cost } hnd1
    · rw [hrec]
      intro r hr hic
      rcases List.mem_append.mp hr with hh | hh
      · exact h2 r hh hic
      · rw [List.mem_singleton] at hh
        subst hh
        exact hcommon hic
    · rw [hrec, hpay]
      intro r hr x hx
      rcases List.mem_append.mp hr with hh | hh
      · apply keys_foldl_addPerson_subset
        show x.1 ∈ keys (bump (addPerson c buyer).personPayments buyer cost)
        unfold keys
        rw [show (bump (addPerson c buyer).personPayments buyer cost).map Prod.fst
            = keys (bump (addPerson c buyer).personPayments buyer cost) from rfl]
        rw [keys_bump]
        exact keys_addPerson_subset c buyer x.1 (h3 r hh x hx)
      · rw [List.mem_singleton] at hh
        subst hh
        apply mem_keys_foldl_addPerson
        exact List.mem_map_of_mem Prod.fst hx
    · rw [hrec, hpay, sumVals_foldl_addPerson]
      show sumVals (bump (addPerson c buyer).personPayments buyer cost) = _
      rw [sumVals_bump _ buyer cost hbuyer, sumVals_addPerson, h4]
      simp

theorem bumpChecked_eq_some (owed : List (String × ℚ)) (p : String) (a : ℚ)
    (h : p ∈ keys owed) : bumpChecked owed p a = some (bump owed p a) := by
  induction owed with
  | nil => simp [keys] at h
  | cons x r ih =>
    rw [bumpChecked, bump]
    cases hx : (x.1 == p) with
    | true => simp
    | false =>
      simp only [Bool.false_eq_true, if_false]
      have hxp : x.1 ≠ p := by simpa using hx
      have h2 : p ∈ keys r := by
        have hck : keys (x :: r) = x.1 :: keys r := by simp [keys]
        rw [hck] at h
        rcases List.mem_cons.mp h with hh | hh
        · exact absurd hh.symm hxp
        · exact hh
      rw [ih h2]
      rfl

theorem addShares_ok (contribs owed : List (String × ℚ))
    (h : ∀ x ∈ contribs, x.1 ∈ keys owed) :
    ∃ owed2, addShares owed contribs = some owed2 ∧ keys owed2 = keys owed ∧
      sumVals owed2 = sumVals owed + sumVals contribs := by
  induction contribs generalizing owed with
  | nil => exact ⟨owed, rfl, rfl, by simp [sumVals]⟩
  | cons x rest ih =>
    obtain ⟨p, a⟩ := x
    have hp : p ∈ keys owed := h (p, a) (List.mem_cons_self _ _)
    have hrest : ∀ y ∈ rest, y.1 ∈ keys (bump owed p a) := by
      intro y hy
      rw [keys_bump]
      exact h y (List.mem_cons_of_mem _ hy)
    obtain ⟨owed2, hok, hk, hs⟩ := ih (bump owed p a) hrest
    refine ⟨owed2, ?_, hk.trans (keys_bump owed p a), ?_⟩
    · rw [addShares, bumpChecked_eq_some owed p a hp]
      exact hok
    · rw [hs, sumVals_bump owed p a hp]
      simp only [sumVals, List.map_cons, List.sum_cons]
      ring

theorem sumVals_common_contribs (ppl : List (String × ℤ)) (share : ℚ) :
    sumVals (ppl.map (fun x => (x.1, share))) = ppl.length * share := by
  induction ppl with
  | nil => simp [sumVals]
  | cons x r ih =>
    simp only [List.map_cons, sumVals, List.sum_cons, List.length_cons] at ih ⊢
    rw [ih]
    push_cast
    ring

theorem sumVals_prop_contribs (ppl : List (String × ℤ)) (cpu : ℚ) :
    sumVals (ppl.map (fun x => (x.1, cpu * (x.2 : ℚ)))) =
      cpu * (((ppl.map Prod.snd).sum : ℤ) : ℚ) := by
  induction ppl with
  | nil => simp [sumVals]
  | cons x r ih =>
    simp only [List.map_cons, sumVals, List.sum_cons] at ih ⊢
    rw [ih]
    push_cast
    ring

theorem sharesLoop_ok (recs : List ItemRecord) (owed : List (String × ℚ))
    (h1 : ∀ r ∈ recs, r.2.2.2 = true → r.2.2.1 ≠ [])
    (htq : ∀ r ∈ recs, r.2.2.2 = false → (r.2.2.1.map Prod.snd).sum ≠ 0)
    (h2 : ∀ r ∈ recs, ∀ x ∈ r.2.2.1, x.1 ∈ keys owed) :
    ∃ owed2, sharesLoop owed recs = Except.ok owed2 ∧ keys owed2 = keys owed ∧
      sumVals owed2 = sumVals owed + (recs.map (fun r => r.2.1)).sum := by
  induction recs generalizing owed with
  | nil => exact ⟨owed, rfl, rfl, by simp⟩
  | cons rec rest ih =>
    obtain ⟨buyer, cost, ppl, ic⟩ := rec
    have hmem : (buyer, cost, ppl, ic) ∈ (buyer, cost, ppl, ic) :: rest :=
      List.mem_cons_self _ _
    cases ic with
    | true =>
      have hne : ppl ≠ [] := h1 _ hmem rfl
      have hlen : ppl.length ≠ 0 := fun hz => hne (List.length_eq_zero.mp hz)
      have hcon : ∀ x ∈ ppl.map (fun y => (y.1, cost / (ppl.length : ℚ))),
          x.1 ∈ keys owed := by
        intro x hx
        obtain ⟨y, hy, rfl⟩ := List.mem_map.mp hx
        exact h2 _ hmem y hy
      obtain ⟨owedm, haddm, hkm, hsm⟩ :=
        addShares_ok (ppl.map (fun y => (y.1, cost / (ppl.length : ℚ)))) owed hcon
      have h2m : ∀ r ∈ rest, ∀ x ∈ r.2.2.1, x.1 ∈ keys owedm := by
        intro r hr x hx
        rw [hkm]
        exact h2 r (List.mem_cons_of_mem _ hr) x hx
      obtain ⟨owed2, hok2, hk2, hs2⟩ := ih owedm
        (fun r hr => h1 r (List.mem_cons_of_mem _ hr))
        (fun r hr => htq r (List.mem_cons_of_mem _ hr)) h2m
      refine ⟨owed2, ?_, hk2.trans hkm, ?_⟩
      · simp only [sharesLoop, if_true]
        rw [if_neg hlen, haddm]
        exact hok2
      · have hsc : sumVals (ppl.map (fun y => (y.1, cost / (ppl.length : ℚ)))) = cost := by
          rw [sumVals_common_contribs]
          have hq : (ppl.length : ℚ) ≠ 0 := Nat.cast_ne_zero.mpr hlen
          field_simp
        rw [hs2, hsm, hsc]
        simp only [List.map_cons, List.sum_cons]
        ring
    | false =>
      have htq0 : (ppl.map Prod.snd).sum ≠ 0 := htq _ hmem rfl
      have hcon : ∀ x ∈ ppl.map
          (fun y => (y.1, cost / (((ppl.map Prod.snd).sum : ℤ) : ℚ) * (y.2 : ℚ))),
          x.1 ∈ keys owed := by
        intro x hx
        obtain ⟨y, hy, rfl⟩ := List.mem_map.mp hx
        exact h2 _ hmem y hy
      obtain ⟨owedm, haddm, hkm, hsm⟩ := addShares_ok
        (ppl.map (fun y => (y.1, cost / (((ppl.map Prod.snd).sum : ℤ) : ℚ) * (y.2 : ℚ))))
        owed hcon
      have h2m : ∀ r ∈ rest, ∀ x ∈ r.2.2.1, x.1 ∈ keys owedm := by
        intro r hr x hx
        rw [hkm]
        exact h2 r (List.mem_cons_of_mem _ hr) x hx
      obtain ⟨owed2, hok2, hk2, hs2⟩ := ih owedm
        (fun r hr => h1 r (List.mem_cons_of_mem _ hr))
        (fun r hr => htq r (List.mem_cons_of_mem _ hr)) h2m
      refine ⟨owed2, ?_, hk2.trans hkm, ?_⟩
      · simp only [sharesLoop, Bool.false_eq_true, if_false]
        rw [if_neg htq0, haddm]
        exact hok2
      · have hsc : sumVals (ppl.map
            (fun y => (y.1, cost / (((ppl.map Prod.snd).sum : ℤ) : ℚ) * (y.2 : ℚ)))) = cost := by
          rw [sumVals_prop_contribs]
          have hq : (((ppl.map Prod.snd).sum : ℤ) : ℚ) ≠ 0 := Int.cast_ne_zero.mpr htq0
          exact div_mul_cancel₀ cost hq
        rw [hs2, hsm, hsc]
        simp only [List.map_cons, List.sum_cons]
        ring

theorem keys_map_zero (l : List (String × ℚ)) :
    keys (l.map (fun x => (x.1, (0 : ℚ)))) = keys l := by
  simp [keys, List.map_map, Function.comp]

theorem sumVals_map_zero (l : List (String × ℚ)) :
    sumVals (l.map (fun x => (x.1, (0 : ℚ)))) = 0 := by
  induction l with
  | nil => rfl
  | cons x r ih => simp only [List.map_cons, sumVals, List.sum_cons] at ih ⊢; rw [ih]; ring

theorem sum_getD_eq_sumVals (payments : List (String × ℚ)) (owed : List (String × ℚ))
    (hk : keys owed = keys payments) (hnd : NoDupKeys payments) :
    (payments.map (fun x => getD owed x.1)).sum = sumVals owed := by
  induction payments generalizing owed with
  | nil =>
    cases owed with
    | nil => rfl
    | cons y s => simp [keys] at hk
  | cons x r ih =>
    cases owed with
    | nil => simp [keys] at hk
    | cons y s =>
      have hk2 : y.1 = x.1 ∧ keys s = keys r := by
        have : y.1 :: keys s = x.1 :: keys r := by simpa [keys] using hk
        exact ⟨(List.cons.injEq _ _ _ _).mp this |>.1, (List.cons.injEq _ _ _ _).mp this |>.2⟩
      obtain ⟨hy1, hks⟩ := hk2
      have hnotin : x.1 ∉ keys r := by
        unfold NoDupKeys at hnd
        have : keys (x :: r) = x.1 :: keys r := by simp [keys]
        rw [this] at hnd
        exact (List.nodup_cons.mp hnd).1
      have hndr : NoDupKeys r := by
        unfold NoDupKeys at hnd ⊢
        have : keys (x :: r) = x.1 :: keys r := by simp [keys]
        rw [this] at hnd
        exact (List.nodup_cons.mp hnd).2
      have hhead : getD (y :: s) x.1 = y.2 := by
        rw [getD_cons]
        simp [hy1]
      have htail : ∀ p ∈ r, getD (y :: s) p.1 = getD s p.1 := by
        intro p hp
        rw [getD_cons]
        have hne : y.1 ≠ p.1 := by
          rw [hy1]
          intro hc
          exact hnotin (hc ▸ List.mem_map_of_mem Prod.fst hp)
        simp [hne]
      calc ((x :: r).map (fun z => getD (y :: s) z.1)).sum
          = getD (y :: s) x.1 + (r.map (fun z => getD (y :: s) z.1)).sum := by
            simp
        _ = y.2 + (r.map (fun z => getD s z.1)).sum := by
            rw [hhead, List.map_congr_left htail]
        _ = y.2 + sumVals s := by rw [ih s hks hndr]
        _ = sumVals (y :: s) := by simp [sumVals]

theorem sum_map_sub (l : List (String × ℚ)) (f g : String × ℚ → ℚ) :
    (l.map (fun x => f x - g x)).sum = (l.map f).sum - (l.map g).sum := by
  induction l with
  | nil => simp
  | cons x r ih => simp only [List.map_cons, List.sum_cons, ih]; ring

theorem sumVals_balancesOf (c : GroupTransactionCalculator) (owed : List (String × ℚ)) :
    sumVals (balancesOf c owed) =
      sumVals c.personPayments - (c.personPayments.map (fun x => getD owed x.1)).sum := by
  unfold balancesOf sumVals
  rw [List.map_map]
  have : (Prod.snd ∘ fun x : String × ℚ => (x.1, x.2 - getD owed x.1))
      = fun x : String × ℚ => x.2 - getD owed x.1 := rfl
  rw [this, sum_map_sub c.personPayments (fun x => x.2) (fun x => getD owed x.1)]

/-- Claim C4: for every ledger built by any sequence of `addPerson` and
successful `addItem` calls with nonnegative cost, provided no proportional
record has zero total quantity, `calculateShares` succeeds and the balances
handed to the optimizer sum to exactly `0` — in particular within `0.01`.
(The zero-weight proportional case must be excluded: there the cost is
credited to the buyer as paid but never owed by anyone, see the
counterexample.) -/
theorem claim_C4_balances_sum_zero (c : GroupTransactionCalculator) (h : Built c)
    (htq : ∀ r ∈ c.itemRecords, r.2.2.2 = false → (r.2.2.1.map Prod.snd).sum ≠ 0) :
    ∃ owed, calculateShares c = Except.ok owed ∧ sumVals (balancesOf c owed) = 0 := by
  obtain ⟨hnd, h1, h3, h4⟩ := built_invariants c h
  have hk0 : keys (c.personPayments.map (fun x => (x.1, (0 : ℚ)))) = keys c.personPayments :=
    keys_map_zero c.personPayments
  have h2 : ∀ r ∈ c.itemRecords, ∀ x ∈ r.2.2.1,
      x.1 ∈ keys (c.personPayments.map (fun x => (x.1, (0 : ℚ)))) := by
    intro r hr x hx
    rw [hk0]
    exact h3 r hr x hx
  obtain ⟨owed2, hok, hkeys, hsum⟩ :=
    sharesLoop_ok c.itemRecords (c.personPayments.map (fun x => (x.1, (0 : ℚ)))) h1 htq h2
  refine ⟨owed2, ?_, ?_⟩
  · unfold calculateShares
    exact hok
  · rw [sumVals_balancesOf,
      sum_getD_eq_sumVals c.personPayments owed2 (hkeys.trans hk0) hnd, hsum,
      sumVals_map_zero, h4]
    ring

/-- Witness for C4: the ledger from `addItem("A", 30, {A:1, B:2, C:1}, proportional)`
on a fresh calculator satisfies the hypotheses, and its balances sum to zero. -/
theorem claim_C4_witness :
    ∃ owed, calculateShares
        ⟨[("A", 30), ("B", 0), ("C", 0)],
         [("A", 30, [("A", 1), ("B", 2), ("C", 1)], false)], [],
         [(("B", "A"), 15), (("C", "A"), 15/2)]⟩ = Except.ok owed ∧
      sumVals (balancesOf
        ⟨[("A", 30), ("B", 0), ("C", 0)],
         [("A", 30, [("A", 1), ("B", 2), ("C", 1)], false)], [],
         [(("B", "A"), 15), (("C", "A"), 15/2)]⟩ owed) = 0 := by
  have hok : addItem initCalc "A" 30 [("A", 1), ("B", 2), ("C", 1)] false =
      Except.ok ⟨[("A", 30), ("B", 0), ("C", 0)],
        [("A", 30, [("A", 1), ("B", 2), ("C", 1)], false)], [],
        [(("B", "A"), 15), (("C", "A"), 15/2)]⟩ := by
    with_unfolding_all decide
  exact claim_C4_balances_sum_zero _
    (Built.item initCalc _ "A" 30 [("A", 1), ("B", 2), ("C", 1)] false Built.start
      (by norm_num) hok)
    (by decide)

/-- Counterexample to C4 as stated: a ledger built by a single successful
`addItem("A", 5, {B: 0}, proportional)` call has balances summing to `5`,
not within `0.01` of zero — the buyer is credited with paying `5` but the
zero-weight record is skipped, so nobody owes it. -/
theorem claim_C4_counterexample :
    ∃ c : GroupTransactionCalculator, Built c ∧
      ∃ owed, calculateShares c = Except.ok owed ∧
        ¬ |sumVals (balancesOf c owed)| < eps := by
  refine ⟨⟨[("A", 5), ("B", 0)], [("A", 5, [("B", 0)], false)], [], []⟩,
    ?_, [("A", 0), ("B", 0)], ?_, ?_⟩
  · exact Built.item initCalc _ "A" 5 [("B", 0)] false Built.start (by norm_num)
      (by with_unfolding_all decide)
  · with_unfolding_all decide
  · with_unfolding_all decide
